import Mathlib

/-!
Verification of the `Config` and `Logger` helpers of `src/utils.py`.

The Python code is shallowly embedded as follows:
* JSON values (`json.load` / `json.dump` payloads) become the inductive
  `Json`; JSON numbers are modeled as integers (floating point is outside
  the scope of the embedding).
* Python strings become `List Char` (Unicode scalar sequences).
* The filesystem touched by `Config.dump` / `Config.load` becomes the
  explicit record `FS`; `os` / `open` calls become pure functions on it.
* The `Logger` instance state (its open file, the captured standard
  output, and the `infos` ordered dictionary) becomes `LoggerState`.
-/

set_option maxHeartbeats 1000000
set_option linter.unreachableTactic false
set_option linter.unusedTactic false

abbrev Key := List Char

/-- JSON values accepted by the `json` calls in `Config`.  Numbers are
modeled as integers; `obj` keeps members in insertion order, mirroring a
Python `dict`. -/
inductive Json where
  | null
  | bool (b : Bool)
  | num (n : Int)
  | str (s : List Char)
  | arr (xs : List Json)
  | obj (kvs : List (Key × Json))

abbrev JObj := List (Key × Json)

/-- Python string `<=` on code points, as used by `sort_keys=True`. -/
def keyLe : List Char → List Char → Bool
  | [], _ => true
  | _ :: _, [] => false
  | a :: as, b :: bs => if a < b then true else if b < a then false else keyLe as bs

/-- Insert a member into a key-sorted member list (helper for `sortPairs`). -/
def insPair (p : Key × Json) : JObj → JObj
  | [] => [p]
  | q :: qs => if keyLe p.1 q.1 then p :: q :: qs else q :: insPair p qs

/-- Stable sort of object members by key; models Python `sorted` on dict
items as performed by `json.dumps(..., sort_keys=True)`. -/
def sortPairs : JObj → JObj
  | [] => []
  | p :: ps => insPair p (sortPairs ps)

/-- Decimal digit character (`'0'` is code point 48). -/
def digitCh (n : Nat) : Char := Char.ofNat (48 + n)

/-- Decimal representation of a natural number, as Python `repr` writes it. -/
def natToChars (n : Nat) : List Char :=
  if _h : n < 10 then [digitCh n]
  else natToChars (n / 10) ++ [digitCh (n % 10)]
decreasing_by exact Nat.div_lt_self (by omega) (by omega)

/-- Decimal representation of an integer, as the `json` module writes it. -/
def intToChars (n : Int) : List Char :=
  if n < 0 then '-' :: natToChars n.natAbs else natToChars n.toNat

/-- Lowercase hexadecimal digit (`'a'` is code point 97). -/
def hexCh (n : Nat) : Char := if n < 10 then Char.ofNat (48 + n) else Char.ofNat (87 + n)

/-- Four lowercase hex digits, as in the `json` module's `\uXXXX` escapes. -/
def hex4 (n : Nat) : List Char :=
  [hexCh (n / 4096 % 16), hexCh (n / 256 % 16), hexCh (n / 16 % 16), hexCh (n % 16)]

/-- Escape of one character, following the `json` encoder with
`ensure_ascii=True`: printable ASCII is literal, the short escapes are
used for the usual control characters, everything else becomes `\uXXXX`
(a surrogate pair for code points beyond the basic plane). -/
def escChar (c : Char) : List Char :=
  if c = '"' then ['\\', '"']
  else if c = '\\' then ['\\', '\\']
  else if c = '\x08' then ['\\', 'b']
  else if c = '\x0c' then ['\\', 'f']
  else if c = '\n' then ['\\', 'n']
  else if c = '\r' then ['\\', 'r']
  else if c = '\t' then ['\\', 't']
  else if 32 ≤ c.toNat ∧ c.toNat ≤ 126 then [c]
  else if c.toNat < 65536 then '\\' :: 'u' :: hex4 c.toNat
  else
    let v := c.toNat - 65536
    '\\' :: 'u' :: (hex4 (55296 + v / 1024) ++ '\\' :: 'u' :: hex4 (56320 + v % 1024))

/-- Escape of a whole string body. -/
def escBody : List Char → List Char
  | [] => []
  | c :: r => escChar c ++ escBody r

/-- Indentation prefix written by `json.dump(..., indent=2)` at nesting
depth `lvl`. -/
def ind (lvl : Nat) : List Char := List.replicate (2 * lvl) ' '

def lbrace : Char := Char.ofNat 123

def rbrace : Char := Char.ofNat 125

mutual
/-- Serialization with `indent=2`, exactly as `json.dump` lays it out.
Object members are written in list order; the `sort_keys=True` part of
the calls in `Config` is modeled by `canon` below. -/
def serRaw (lvl : Nat) : Json → List Char
  | .null => ['n', 'u', 'l', 'l']
  | .bool true => 't' :: ['r', 'u', 'e']
  | .bool false => 'f' :: ['a', 'l', 's', 'e']
  | .num n => intToChars n
  | .str s => '"' :: (escBody s ++ ['"'])
  | .arr [] => ['[', ']']
  | .arr (x :: xs) =>
      '[' :: '\n' :: (ind (lvl + 1) ++ serRaw (lvl + 1) x ++ serItems (lvl + 1) xs
        ++ '\n' :: (ind lvl ++ [']']))
  | .obj [] => [lbrace, rbrace]
  | .obj (m :: ms) =>
      lbrace :: '\n' :: (ind (lvl + 1) ++ serMember (lvl + 1) m
        ++ serMembersTail (lvl + 1) ms ++ '\n' :: (ind lvl ++ [rbrace]))

/-- Remaining array items, each preceded by `",\n" ++ ind lvl`. -/
def serItems (lvl : Nat) : List Json → List Char
  | [] => []
  | x :: xs => ',' :: '\n' :: (ind lvl ++ serRaw lvl x ++ serItems lvl xs)

/-- One object member: `"key": value`. -/
def serMember (lvl : Nat) (m : Key × Json) : List Char :=
  '"' :: (escBody m.1 ++ '"' :: ':' :: ' ' :: serRaw lvl m.2)

/-- Remaining object members, each preceded by `",\n" ++ ind lvl`. -/
def serMembersTail (lvl : Nat) : List (Key × Json) → List Char
  | [] => []
  | m :: ms => ',' :: '\n' :: (ind lvl ++ serMember lvl m ++ serMembersTail lvl ms)
end

mutual
/-- Recursively sorts every object member list by key; together with
`serRaw` this models `json.dumps(v, sort_keys=True, indent=2)`. -/
def canon : Json → Json
  | .arr xs => .arr (canonList xs)
  | .obj kvs => .obj (sortPairs (canonMembers kvs))
  | j => j

def canonList : List Json → List Json
  | [] => []
  | x :: xs => canon x :: canonList xs

def canonMembers : JObj → JObj
  | [] => []
  | m :: ms => (m.1, canon m.2) :: canonMembers ms
end

/-- `json.dumps(v, sort_keys=True, indent=2)`. -/
def dumps (v : Json) : List Char := serRaw 0 (canon v)

mutual
/-- Fuel measure for the recursive-descent parser below. -/
def jfuel : Json → Nat
  | .arr xs => 1 + lfuel xs
  | .obj kvs => 1 + mfuel kvs
  | _ => 1

def lfuel : List Json → Nat
  | [] => 1
  | x :: xs => jfuel x + 1 + lfuel xs

def mfuel : JObj → Nat
  | [] => 1
  | m :: ms => jfuel m.2 + 1 + mfuel ms
end

/-- Python `dict` lookup on an insertion-ordered member list. -/
def lookupJ (k : Key) : JObj → Option Json
  | [] => none
  | (k', v) :: r => if k' = k then some v else lookupJ k r

/-- Whether `k` occurs among the keys of a member list. -/
def keyMem (k : Key) : JObj → Bool
  | [] => false
  | (k', _) :: r => k' = k || keyMem k r

/-- All keys distinct; holds for any member list arising from a Python
`dict`. -/
def nodupKeys : JObj → Bool
  | [] => true
  | (k, _) :: r => !keyMem k r && nodupKeys r

mutual
/-- Well-formedness: every object member list (at any depth) has distinct
keys, as is the case for values coming from Python dicts. -/
def wf : Json → Bool
  | .arr xs => wfList xs
  | .obj kvs => nodupKeys kvs && wfMembers kvs
  | _ => true

def wfList : List Json → Bool
  | [] => true
  | x :: xs => wf x && wfList xs

def wfMembers : JObj → Bool
  | [] => true
  | m :: ms => wf m.2 && wfMembers ms
end

mutual
/-- Python `==` on JSON values: dictionaries compare by key lookup
(insertion order is irrelevant), everything else structurally. -/
def jeqB : Json → Json → Bool
  | .null, .null => true
  | .bool a, .bool b => a = b
  | .num a, .num b => a = b
  | .str a, .str b => a = b
  | .arr xs, .arr ys => jeqList xs ys
  | .obj A, .obj B => A.length = B.length && jeqMembers A B
  | _, _ => false
termination_by a _ => jfuel a
decreasing_by all_goals (simp [jfuel, lfuel, mfuel] <;> omega)

def jeqList : List Json → List Json → Bool
  | [], [] => true
  | x :: xs, y :: ys => jeqB x y && jeqList xs ys
  | _, _ => false
termination_by xs _ => lfuel xs
decreasing_by all_goals (simp [jfuel, lfuel, mfuel] <;> omega)

def jeqMembers : JObj → JObj → Bool
  | [], _ => true
  | (k, v) :: r, B =>
      (match lookupJ k B with
       | some w => jeqB v w
       | none => false) && jeqMembers r B
termination_by A _ => mfuel A
decreasing_by all_goals (simp [jfuel, lfuel, mfuel] <;> omega)
end

/-- Whitespace accepted between JSON tokens by the decoder. -/
def isWs (c : Char) : Bool := c = ' ' || c = '\t' || c = '\n' || c = '\r'

/-- Drop leading whitespace, as the json scanner does between tokens. -/
def skipWs : List Char → List Char
  | [] => []
  | c :: r => if isWs c then skipWs r else c :: r

/-- Value of one hexadecimal digit (either case), `none` otherwise. -/
def hexVal (c : Char) : Option Nat :=
  if 48 ≤ c.toNat ∧ c.toNat ≤ 57 then some (c.toNat - 48)
  else if 97 ≤ c.toNat ∧ c.toNat ≤ 102 then some (c.toNat - 87)
  else if 65 ≤ c.toNat ∧ c.toNat ≤ 70 then some (c.toNat - 55)
  else none

/-- Read four hexadecimal digits, as after `\\u` in a JSON escape. -/
def readHex4 : List Char → Option (Nat × List Char)
  | a :: b :: c :: d :: r =>
    match hexVal a, hexVal b, hexVal c, hexVal d with
    | some x, some y, some z, some w => some (x * 4096 + y * 256 + z * 16 + w, r)
    | _, _, _, _ => none
  | _ => none

/-- Decode a `\\uXXXX` escape (after the `u`), combining surrogate pairs
as the json scanner does.  Lone surrogates are rejected here (Python
would keep them as unpaired code units, which `Char` cannot carry; the
encoder's output never contains them). -/
def decodeU (s : List Char) : Option (Char × List Char) :=
  match readHex4 s with
  | none => none
  | some (n, r) =>
    if 55296 ≤ n ∧ n ≤ 56319 then
      match r with
      | b :: u :: r2 =>
        if b = '\\' ∧ u = 'u' then
          match readHex4 r2 with
          | some (m, r3) =>
            if 56320 ≤ m ∧ m ≤ 57343 then
              some (Char.ofNat (65536 + (n - 55296) * 1024 + (m - 56320)), r3)
            else none
          | none => none
        else none
      | _ => none
    else if 56320 ≤ n ∧ n ≤ 57343 then none
    else some (Char.ofNat n, r)

/-- The json scanner's table of short backslash escapes. -/
def escShort (e : Char) : Option Char :=
  if e = '"' then some '"'
  else if e = '\\' then some '\\'
  else if e = '/' then some '/'
  else if e = 'b' then some '\x08'
  else if e = 'f' then some '\x0c'
  else if e = 'n' then some '\n'
  else if e = 'r' then some '\r'
  else if e = 't' then some '\t'
  else none

/-- Decode a JSON string body (everything after the opening quote), as
the json module's scanner does: short escapes, `\\uXXXX` escapes, and
literal characters from code point 32 up.  `fuel` bounds the number of
decoded characters; callers pass the input length, which always
suffices. -/
def parseStrBody (fuel : Nat) : List Char → Option (List Char × List Char) :=
  match fuel with
  | 0 => fun _ => none
  | fuel + 1 => fun s =>
    match s with
    | [] => none
    | c :: r =>
      if c = '"' then some ([], r)
      else if c = '\\' then
        match r with
        | [] => none
        | e :: r2 =>
          if e = 'u' then
            match decodeU r2 with
            | some (ch, r3) => (parseStrBody fuel r3).map (fun p => (ch :: p.1, p.2))
            | none => none
          else
            match escShort e with
            | some ch => (parseStrBody fuel r2).map (fun p => (ch :: p.1, p.2))
            | none => none
      else if c.toNat < 32 then none
      else (parseStrBody fuel r).map (fun p => (c :: p.1, p.2))

/-- Consume a run of decimal digits, accumulating their value. -/
def parseDigits (acc : Nat) : List Char → Nat × List Char
  | [] => (acc, [])
  | c :: r =>
    if 48 ≤ c.toNat ∧ c.toNat ≤ 57 then parseDigits (acc * 10 + (c.toNat - 48)) r
    else (acc, c :: r)

mutual
/-- Recursive-descent JSON value parser modeling `json.load`'s scanner,
restricted to the integer-number fragment of the embedding.  `fuel`
bounds the recursion depth; `jsonLoad` supplies enough for any input. -/
def parseVal : Nat → List Char → Option (Json × List Char)
  | 0, _ => none
  | fuel + 1, s =>
    match skipWs s with
    | [] => none
    | c :: r =>
      if c = '"' then (parseStrBody (r.length + 1) r).map (fun p => (Json.str p.1, p.2))
      else if c = lbrace then
        match skipWs r with
        | [] => none
        | d :: r2 =>
          if d = rbrace then some (Json.obj [], r2)
          else (parseMembers fuel (d :: r2)).map (fun p => (Json.obj p.1, p.2))
      else if c = '[' then
        match skipWs r with
        | [] => none
        | d :: r2 =>
          if d = ']' then some (Json.arr [], r2)
          else (parseItems fuel (d :: r2)).map (fun p => (Json.arr p.1, p.2))
      else if c = 't' then
        match r with
        | 'r' :: 'u' :: 'e' :: r2 => some (Json.bool true, r2)
        | _ => none
      else if c = 'f' then
        match r with
        | 'a' :: 'l' :: 's' :: 'e' :: r2 => some (Json.bool false, r2)
        | _ => none
      else if c = 'n' then
        match r with
        | 'u' :: 'l' :: 'l' :: r2 => some (Json.null, r2)
        | _ => none
      else if c = '-' then
        match r with
        | [] => none
        | d :: r2 =>
          if 48 ≤ d.toNat ∧ d.toNat ≤ 57 then
            let p := parseDigits (d.toNat - 48) r2
            some (Json.num (-(p.1 : Int)), p.2)
          else none
      else if 48 ≤ c.toNat ∧ c.toNat ≤ 57 then
        let p := parseDigits (c.toNat - 48) r
        some (Json.num (p.1 : Int), p.2)
      else none
termination_by fuel _ => (fuel, 0)

/-- Items of a non-empty array, positioned at the first item. -/
def parseItems : Nat → List Char → Option (List Json × List Char)
  | 0, _ => none
  | fuel + 1, s =>
    match parseVal (fuel + 1) s with
    | none => none
    | some (v, r) =>
      match skipWs r with
      | [] => none
      | d :: r2 =>
        if d = ',' then (parseItems fuel (skipWs r2)).map (fun p => (v :: p.1, p.2))
        else if d = ']' then some ([v], r2)
        else none
termination_by fuel _ => (fuel, 1)

/-- Members of a non-empty object, positioned at the first key's quote. -/
def parseMembers : Nat → List Char → Option (JObj × List Char)
  | 0, _ => none
  | fuel + 1, s =>
    match s with
    | [] => none
    | c :: r =>
      if c = '"' then
        match parseStrBody (r.length + 1) r with
        | none => none
        | some (k, r2) =>
          match skipWs r2 with
          | [] => none
          | e :: r3 =>
            if e = ':' then
              match parseVal (fuel + 1) r3 with
              | none => none
              | some (v, r4) =>
                match skipWs r4 with
                | [] => none
                | d :: r5 =>
                  if d = ',' then
                    (parseMembers fuel (skipWs r5)).map (fun p => ((k, v) :: p.1, p.2))
                  else if d = rbrace then some ([(k, v)], r5)
                  else none
            else none
      else none
termination_by fuel _ => (fuel, 1)
end

/-- `json.load(f)`: parse one JSON document from the whole file content,
allowing only trailing whitespace. -/
def jsonLoad (content : List Char) : Option Json :=
  match parseVal (content.length + 1) content with
  | some (v, rest) => if skipWs rest = [] then some v else none
  | none => none

theorem keyLe_total (a b : List Char) : keyLe a b = true ∨ keyLe b a = true := by
  induction a generalizing b with
  | nil => left; simp [keyLe]
  | cons x xs ih =>
    cases b with
    | nil => right; simp [keyLe]
    | cons y ys =>
      rcases lt_trichotomy x y with h | h | h
      · left; simp [keyLe, h]
      · subst h
        rcases ih ys with h2 | h2
        · left; simp [keyLe, lt_irrefl, h2]
        · right; simp [keyLe, lt_irrefl, h2]
      · right
        have hnl : ¬ y < x → False := fun hc => hc h
        simp [keyLe, h, not_lt_of_gt h]

theorem keyLe_refl (a : List Char) : keyLe a a = true := by
  induction a with
  | nil => simp [keyLe]
  | cons x xs ih => simp [keyLe, lt_irrefl, ih]

theorem keyLe_antisymm : ∀ {a b : List Char}, keyLe a b = true → keyLe b a = true → a = b
  | [], [], _, _ => rfl
  | [], _ :: _, _, h => by simp [keyLe] at h
  | _ :: _, [], h, _ => by simp [keyLe] at h
  | x :: xs, y :: ys, h1, h2 => by
    rcases lt_trichotomy x y with h | h | h
    · simp [keyLe, h, not_lt_of_gt h] at h2
    · subst h
      simp only [keyLe, lt_irrefl, if_false] at h1 h2
      exact congrArg (x :: ·) (keyLe_antisymm h1 h2)
    · simp [keyLe, h, not_lt_of_gt h] at h1

theorem keyLe_trans : ∀ {a b c : List Char},
    keyLe a b = true → keyLe b c = true → keyLe a c = true
  | [], _, _, _, _ => by simp [keyLe]
  | _ :: _, [], _, h, _ => by simp [keyLe] at h
  | _ :: _, _ :: _, [], _, h => by simp [keyLe] at h
  | x :: xs, y :: ys, z :: zs, h1, h2 => by
    rcases lt_trichotomy x y with hxy | hxy | hxy
    · rcases lt_trichotomy y z with hyz | hyz | hyz
      · simp [keyLe, lt_trans hxy hyz]
      · subst hyz; simp [keyLe, hxy]
      · simp [keyLe, hyz, not_lt_of_gt hyz] at h2
    · subst hxy
      rcases lt_trichotomy x z with hyz | hyz | hyz
      · simp [keyLe, hyz]
      · subst hyz
        simp only [keyLe, lt_irrefl, if_false] at h1 h2 ⊢
        exact keyLe_trans h1 h2
      · simp [keyLe, hyz, not_lt_of_gt hyz] at h2
    · simp [keyLe, hxy, not_lt_of_gt hxy] at h1

/-- Member lists sorted by key, as produced by `sort_keys=True`. -/
abbrev SortedKeys (l : JObj) : Prop := l.Pairwise (fun p q => keyLe p.1 q.1 = true)

theorem insPair_perm (p : Key × Json) (l : JObj) : (insPair p l).Perm (p :: l) := by
  induction l with
  | nil => exact List.Perm.refl _
  | cons q qs ih =>
    simp only [insPair]
    split
    · exact List.Perm.refl _
    · exact (ih.cons q).trans (List.Perm.swap p q qs)

theorem sortPairs_perm (l : JObj) : (sortPairs l).Perm l := by
  induction l with
  | nil => exact List.Perm.refl _
  | cons p ps ih => exact (insPair_perm p (sortPairs ps)).trans (ih.cons p)

theorem insPair_sorted (p : Key × Json) {l : JObj} (h : SortedKeys l) :
    SortedKeys (insPair p l) := by
  induction l with
  | nil => simp [insPair, SortedKeys]
  | cons q qs ih =>
    replace h := List.pairwise_cons.mp h
    simp only [insPair]
    split
    · rename_i hle
      refine List.Pairwise.cons ?_ (List.Pairwise.cons h.1 h.2)
      intro r hr
      rcases List.mem_cons.mp hr with rfl | hr
      · exact hle
      · exact keyLe_trans hle (h.1 r hr)
    · rename_i hnle
      have hqp : keyLe q.1 p.1 = true := by
        rcases keyLe_total p.1 q.1 with h1 | h1
        · exact absurd h1 hnle
        · exact h1
      refine List.Pairwise.cons ?_ (ih h.2)
      intro r hr
      have hmem : r ∈ p :: qs := (insPair_perm p qs).mem_iff.mp hr
      rcases List.mem_cons.mp hmem with rfl | hrq
      · exact hqp
      · exact h.1 r hrq

theorem sortPairs_sorted (l : JObj) : SortedKeys (sortPairs l) := by
  induction l with
  | nil => simp [sortPairs, SortedKeys]
  | cons p ps ih => exact insPair_sorted p ih

theorem sorted_keyNodup_eq : ∀ {l1 l2 : JObj}, l1.Perm l2 → SortedKeys l1 → SortedKeys l2 →
    (l1.map Prod.fst).Nodup → l1 = l2
  | [], l2, hp, _, _, _ => hp.nil_eq
  | a :: t1, l2, hp, hs1, hs2, hn => by
    cases l2 with
    | nil => exact absurd hp.length_eq (by simp)
    | cons b t2 =>
      replace hs1 := List.pairwise_cons.mp hs1
      replace hs2 := List.pairwise_cons.mp hs2
      by_cases hab : a = b
      · subst hab
        have ht : t1.Perm t2 := hp.cons_inv
        have := sorted_keyNodup_eq ht hs1.2 hs2.2 (by
          simp only [List.map_cons, List.nodup_cons] at hn
          exact hn.2)
        rw [this]
      · exfalso
        have hamem : a ∈ b :: t2 := hp.mem_iff.mp (List.mem_cons_self a t1)
        have hbmem : b ∈ a :: t1 := hp.symm.mem_iff.mp (List.mem_cons_self b t2)
        rcases List.mem_cons.mp hamem with h1 | h1
        · exact hab h1
        rcases List.mem_cons.mp hbmem with h2 | h2
        · exact hab h2.symm
        have hle1 : keyLe a.1 b.1 = true := hs1.1 b h2
        have hle2 : keyLe b.1 a.1 = true := hs2.1 a h1
        have hkey : a.1 = b.1 := keyLe_antisymm hle1 hle2
        simp only [List.map_cons, List.nodup_cons, List.mem_map] at hn
        exact hn.1 ⟨b, h2, hkey.symm⟩

theorem keyMem_iff {k : Key} {l : JObj} : keyMem k l = true ↔ k ∈ l.map Prod.fst := by
  induction l with
  | nil => simp [keyMem]
  | cons p r ih =>
    cases p with
    | mk k' v =>
      simp only [keyMem, Bool.or_eq_true, decide_eq_true_eq, List.map_cons, List.mem_cons, ih]
      constructor
      · rintro (h | h)
        · exact Or.inl h.symm
        · exact Or.inr h
      · rintro (h | h)
        · exact Or.inl h.symm
        · exact Or.inr h

theorem nodupKeys_iff {l : JObj} : nodupKeys l = true ↔ (l.map Prod.fst).Nodup := by
  induction l with
  | nil => simp [nodupKeys]
  | cons p r ih =>
    cases p with
    | mk k' v =>
      simp only [nodupKeys, Bool.and_eq_true, Bool.not_eq_true', List.map_cons,
        List.nodup_cons, ih]
      constructor
      · rintro ⟨h1, h2⟩
        refine ⟨fun hc => ?_, h2⟩
        rw [keyMem_iff.mpr hc] at h1
        exact Bool.noConfusion h1
      · rintro ⟨h1, h2⟩
        refine ⟨?_, h2⟩
        cases hkm : keyMem k' r
        · rfl
        · exact absurd (keyMem_iff.mp hkm) h1

theorem mem_of_lookupJ_eq_some {k : Key} {v : Json} {l : JObj}
    (h : lookupJ k l = some v) : (k, v) ∈ l := by
  induction l with
  | nil => simp [lookupJ] at h
  | cons p r ih =>
    cases p with
    | mk k' w =>
      by_cases hk : k' = k
      · subst hk
        simp [lookupJ] at h
        subst h
        exact List.mem_cons_self _ _
      · simp only [lookupJ, if_neg hk] at h
        exact List.mem_cons_of_mem _ (ih h)

theorem lookupJ_eq_some_of_mem {k : Key} {v : Json} {l : JObj}
    (h : (k, v) ∈ l) (hn : (l.map Prod.fst).Nodup) : lookupJ k l = some v := by
  induction l with
  | nil => simp at h
  | cons p r ih =>
    cases p with
    | mk k' w =>
      simp only [List.map_cons, List.nodup_cons] at hn
      rcases List.mem_cons.mp h with h1 | h1
      · injection h1 with hk hv
        subst hk; subst hv
        simp [lookupJ]
      · have hne : k' ≠ k := by
          rintro rfl
          exact hn.1 (List.mem_map.mpr ⟨(k', v), h1, rfl⟩)
        simp only [lookupJ, if_neg hne]
        exact ih h1 hn.2

theorem jfuel_pos (v : Json) : 1 ≤ jfuel v := by
  cases v <;> simp [jfuel]

theorem lfuel_pos (xs : List Json) : 1 ≤ lfuel xs := by
  cases xs <;> simp [lfuel] <;> omega

theorem mfuel_pos (ms : JObj) : 1 ≤ mfuel ms := by
  cases ms <;> simp [mfuel] <;> omega

/-- Mutual structural induction for `Json` together with item lists and
member lists, derived from the `jfuel` measure. -/
theorem json_mutual_ind (P : Json → Prop) (PL : List Json → Prop) (PM : JObj → Prop)
    (hnull : P .null) (hbool : ∀ b, P (.bool b)) (hnum : ∀ n, P (.num n))
    (hstr : ∀ s, P (.str s)) (harr : ∀ xs, PL xs → P (.arr xs))
    (hobj : ∀ kvs, PM kvs → P (.obj kvs))
    (hnil : PL []) (hcons : ∀ x xs, P x → PL xs → PL (x :: xs))
    (hmnil : PM []) (hmcons : ∀ m ms, P m.2 → PM ms → PM (m :: ms)) :
    (∀ v, P v) ∧ (∀ xs, PL xs) ∧ (∀ ms, PM ms) := by
  have key : ∀ N : Nat, (∀ v, jfuel v ≤ N → P v) ∧ (∀ xs, lfuel xs ≤ N → PL xs) ∧
      (∀ ms, mfuel ms ≤ N → PM ms) := by
    intro N
    induction N using Nat.strong_induction_on with
    | _ N IH =>
      refine ⟨?_, ?_, ?_⟩
      · intro v hv
        cases v with
        | null => exact hnull
        | bool b => exact hbool b
        | num n => exact hnum n
        | str s => exact hstr s
        | arr xs =>
          refine harr xs ?_
          have h1 : lfuel xs < N := by simp [jfuel] at hv; omega
          exact (IH (lfuel xs) h1).2.1 xs le_rfl
        | obj kvs =>
          refine hobj kvs ?_
          have h1 : mfuel kvs < N := by simp [jfuel] at hv; omega
          exact (IH (mfuel kvs) h1).2.2 kvs le_rfl
      · intro xs hxs
        cases xs with
        | nil => exact hnil
        | cons x xs2 =>
          have hp1 := jfuel_pos x
          have hp2 := lfuel_pos xs2
          simp only [lfuel] at hxs
          have hj : jfuel x < N := by omega
          have hl : lfuel xs2 < N := by omega
          exact hcons x xs2 ((IH (jfuel x) hj).1 x le_rfl) ((IH (lfuel xs2) hl).2.1 xs2 le_rfl)
      · intro ms hms
        cases ms with
        | nil => exact hmnil
        | cons m ms2 =>
          have hp1 := jfuel_pos m.2
          have hp2 := mfuel_pos ms2
          simp only [mfuel] at hms
          have hj : jfuel m.2 < N := by omega
          have hl : mfuel ms2 < N := by omega
          exact hmcons m ms2 ((IH (jfuel m.2) hj).1 m.2 le_rfl)
            ((IH (mfuel ms2) hl).2.2 ms2 le_rfl)
  exact ⟨fun v => (key (jfuel v)).1 v le_rfl, fun xs => (key (lfuel xs)).2.1 xs le_rfl,
    fun ms => (key (mfuel ms)).2.2 ms le_rfl⟩

theorem canonMembers_map_fst (ms : JObj) :
    (canonMembers ms).map Prod.fst = ms.map Prod.fst := by
  induction ms with
  | nil => simp [canonMembers]
  | cons m ms ih => simp [canonMembers, ih]

theorem canonMembers_length (ms : JObj) : (canonMembers ms).length = ms.length := by
  induction ms with
  | nil => simp [canonMembers]
  | cons m ms ih => simp [canonMembers, ih]

theorem canonMembers_mem {k : Key} {cv : Json} {ms : JObj}
    (h : (k, cv) ∈ canonMembers ms) : ∃ w, (k, w) ∈ ms ∧ cv = canon w := by
  induction ms with
  | nil => simp [canonMembers] at h
  | cons m ms ih =>
    simp only [canonMembers, List.mem_cons] at h
    rcases h with h | h
    · injection h with h1 h2
      refine ⟨m.2, ?_, h2⟩
      subst h1
      rw [Prod.mk.eta]
      exact List.mem_cons_self _ _
    · obtain ⟨w, hw1, hw2⟩ := ih h
      exact ⟨w, List.mem_cons_of_mem _ hw1, hw2⟩

theorem jeqMembers_of_forall {A B : JObj}
    (h : ∀ p ∈ A, ∃ w, lookupJ p.1 B = some w ∧ jeqB p.2 w = true) :
    jeqMembers A B = true := by
  induction A with
  | nil => simp [jeqMembers]
  | cons p r ih =>
    obtain ⟨w, hw1, hw2⟩ := h p (List.mem_cons_self p r)
    cases p with
    | mk k v =>
      simp only at hw1 hw2
      rw [jeqMembers, hw1]
      simp only [Bool.and_eq_true]
      exact ⟨hw2, ih fun q hq => h q (List.mem_cons_of_mem _ hq)⟩

/-- Canonicalization (the sorting done by `sort_keys=True`) preserves
Python equality on well-formed values. -/
theorem jeq_canon : ∀ v : Json, wf v = true → jeqB (canon v) v = true := by
  have main := json_mutual_ind
    (fun v => wf v = true → jeqB (canon v) v = true)
    (fun xs => wfList xs = true → jeqList (canonList xs) xs = true)
    (fun ms => wfMembers ms = true → ∀ k w, (k, w) ∈ ms → jeqB (canon w) w = true)
    (by intro _; simp [canon, jeqB])
    (by intro b _; cases b <;> simp [canon, jeqB])
    (by intro n _; simp [canon, jeqB])
    (by intro s _; simp [canon, jeqB])
    (by
      intro xs hxs hwf
      simp only [wf] at hwf
      simp only [canon, jeqB]
      exact hxs hwf)
    (by
      intro kvs hm hwf
      simp only [wf, Bool.and_eq_true] at hwf
      obtain ⟨hnd, hwfm⟩ := hwf
      simp only [canon, jeqB, Bool.and_eq_true]
      constructor
      · have h1 := (sortPairs_perm (canonMembers kvs)).length_eq
        have h2 := canonMembers_length kvs
        simp [h1, h2]
      · refine jeqMembers_of_forall ?_
        intro p hp
        have hp2 : p ∈ canonMembers kvs := (sortPairs_perm _).mem_iff.mp hp
        cases p with
        | mk k cv =>
          obtain ⟨w, hw1, hw2⟩ := canonMembers_mem hp2
          refine ⟨w, lookupJ_eq_some_of_mem hw1 (nodupKeys_iff.mp hnd), ?_⟩
          subst hw2
          exact hm hwfm k w hw1)
    (by intro _; simp [canonList, jeqList])
    (by
      intro x xs hx hxs hwf
      simp only [wfList, Bool.and_eq_true] at hwf
      simp only [canonList, jeqList, Bool.and_eq_true]
      exact ⟨hx hwf.1, hxs hwf.2⟩)
    (by intro _ k w h; simp at h)
    (by
      intro m ms hm hms hwf k w hmem
      simp only [wfMembers, Bool.and_eq_true] at hwf
      rcases List.mem_cons.mp hmem with h | h
      · cases m with
        | mk mk1 mv =>
          injection h with h1 h2
          subst h2
          exact hm hwf.1
      · exact hms hwf.2 k w h)
  exact main.1

set_option linter.unnecessarySeqFocus false

theorem digitCh_toNat {n : Nat} (h : n < 10) : (digitCh n).toNat = 48 + n := by
  interval_cases n <;> decide

theorem digitCh_isDigit {n : Nat} (h : n < 10) :
    48 ≤ (digitCh n).toNat ∧ (digitCh n).toNat ≤ 57 := by
  have := digitCh_toNat h
  omega

theorem natToChars_all_digits (n : Nat) :
    ∀ c ∈ natToChars n, 48 ≤ c.toNat ∧ c.toNat ≤ 57 := by
  induction n using Nat.strong_induction_on with
  | _ n ih =>
    rw [natToChars]
    split
    · rename_i h
      intro c hc
      simp only [List.mem_singleton] at hc
      subst hc
      exact digitCh_isDigit h
    · rename_i h
      intro c hc
      rcases List.mem_append.mp hc with hc | hc
      · exact ih (n / 10) (Nat.div_lt_self (by omega) (by omega)) c hc
      · simp only [List.mem_singleton] at hc
        subst hc
        exact digitCh_isDigit (Nat.mod_lt _ (by omega))

theorem natToChars_ne_nil (n : Nat) : natToChars n ≠ [] := by
  rw [natToChars]
  split
  · simp
  · simp

theorem natToChars_cons (n : Nat) : ∃ c t, natToChars n = c :: t := by
  cases h : natToChars n with
  | nil => exact absurd h (natToChars_ne_nil n)
  | cons c t => exact ⟨c, t, rfl⟩

theorem parseDigits_digit {acc : Nat} {c : Char} {r : List Char}
    (h : 48 ≤ c.toNat ∧ c.toNat ≤ 57) :
    parseDigits acc (c :: r) = parseDigits (acc * 10 + (c.toNat - 48)) r := by
  simp [parseDigits, h]

theorem parseDigits_stop {acc : Nat} {rest : List Char}
    (h : ∀ c, rest.head? = some c → ¬(48 ≤ c.toNat ∧ c.toNat ≤ 57)) :
    parseDigits acc rest = (acc, rest) := by
  cases rest with
  | nil => simp [parseDigits]
  | cons c r => simp [parseDigits, h c rfl]

theorem parseDigits_natToChars (n : Nat) : ∀ (acc : Nat) (rest : List Char),
    parseDigits acc (natToChars n ++ rest) =
      parseDigits (acc * 10 ^ (natToChars n).length + n) rest := by
  induction n using Nat.strong_induction_on with
  | _ n ih =>
    intro acc rest
    rw [natToChars]
    split
    · rename_i h
      rw [List.singleton_append, parseDigits_digit (digitCh_isDigit h)]
      have hd := digitCh_toNat h
      have harg : acc * 10 + ((digitCh n).toNat - 48) = acc * 10 ^ [digitCh n].length + n := by
        simp only [List.length_singleton, pow_one]
        omega
      rw [harg]
    · rename_i h
      have hdiv : n / 10 < n := Nat.div_lt_self (by omega) (by omega)
      have hmod : n % 10 < 10 := Nat.mod_lt _ (by omega)
      rw [List.append_assoc, ih (n / 10) hdiv acc ([digitCh (n % 10)] ++ rest),
        List.singleton_append, parseDigits_digit (digitCh_isDigit hmod)]
      have hd := digitCh_toNat hmod
      have harg : (acc * 10 ^ (natToChars (n / 10)).length + n / 10) * 10
            + ((digitCh (n % 10)).toNat - 48)
          = acc * 10 ^ (natToChars (n / 10) ++ [digitCh (n % 10)]).length + n := by
        rw [hd, Nat.add_sub_cancel_left]
        simp only [List.length_append, List.length_singleton, pow_succ]
        have hdm : 10 * (n / 10) + n % 10 = n := Nat.div_add_mod n 10
        calc (acc * 10 ^ (natToChars (n / 10)).length + n / 10) * 10 + n % 10
            = acc * 10 ^ (natToChars (n / 10)).length * 10
              + (10 * (n / 10) + n % 10) := by ring
          _ = acc * (10 ^ (natToChars (n / 10)).length * 10) + n := by rw [hdm]; ring
      rw [harg]

theorem parseDigits_full {n : Nat} {rest : List Char}
    (h : ∀ c, rest.head? = some c → ¬(48 ≤ c.toNat ∧ c.toNat ≤ 57)) :
    parseDigits 0 (natToChars n ++ rest) = (n, rest) := by
  rw [parseDigits_natToChars, parseDigits_stop h]
  simp

theorem parseDigits_head {n : Nat} {c : Char} {t rest : List Char}
    (heq : natToChars n = c :: t)
    (h : ∀ c2, rest.head? = some c2 → ¬(48 ≤ c2.toNat ∧ c2.toNat ≤ 57)) :
    parseDigits (c.toNat - 48) (t ++ rest) = (n, rest) := by
  have hc : 48 ≤ c.toNat ∧ c.toNat ≤ 57 :=
    natToChars_all_digits n c (heq ▸ List.mem_cons_self c t)
  have h0 := @parseDigits_full n rest h
  rw [heq, List.cons_append, parseDigits_digit hc] at h0
  simpa using h0

theorem hexVal_hexCh {d : Nat} (h : d < 16) : hexVal (hexCh d) = some d := by
  interval_cases d <;> decide

theorem char_toNat_valid (c : Char) :
    c.toNat < 55296 ∨ (57343 < c.toNat ∧ c.toNat < 1114112) := by
  have h := c.valid
  have he : c.toNat = c.val.toNat := rfl
  rcases h with h | h
  · left; omega
  · right; omega


theorem readHex4_hex4 {n : Nat} (h : n < 65536) (t : List Char) :
    readHex4 (hex4 n ++ t) = some (n, t) := by
  simp only [hex4, List.cons_append, List.nil_append, readHex4]
  rw [hexVal_hexCh (by omega), hexVal_hexCh (by omega), hexVal_hexCh (by omega),
    hexVal_hexCh (by omega)]
  have harith : n / 4096 % 16 * 4096 + n / 256 % 16 * 256 + n / 16 % 16 * 16 + n % 16 = n := by
    omega
  simp [harith]

theorem decodeU_bmp {c : Char} (h9 : c.toNat < 65536) (t : List Char) :
    decodeU (hex4 c.toNat ++ t) = some (c, t) := by
  have hv := char_toNat_valid c
  have hs1 : ¬ (55296 ≤ c.toNat ∧ c.toNat ≤ 56319) := by omega
  have hs2 : ¬ (56320 ≤ c.toNat ∧ c.toNat ≤ 57343) := by omega
  simp [decodeU, readHex4_hex4 h9, hs1, hs2, Char.ofNat_toNat]

theorem decodeU_pair {c : Char} (h9 : ¬ c.toNat < 65536) (t : List Char) :
    decodeU (hex4 (55296 + (c.toNat - 65536) / 1024)
      ++ '\\' :: 'u' :: (hex4 (56320 + (c.toNat - 65536) % 1024) ++ t)) = some (c, t) := by
  have hv := char_toNat_valid c
  have hdiv : (c.toNat - 65536) / 1024 ≤ 1023 := by omega
  have hmod : (c.toNat - 65536) % 1024 ≤ 1023 := by omega
  have hhi_lt : 55296 + (c.toNat - 65536) / 1024 < 65536 := by omega
  have hlo_lt : 56320 + (c.toNat - 65536) % 1024 < 65536 := by omega
  have hs1 : 55296 ≤ 55296 + (c.toNat - 65536) / 1024
      ∧ 55296 + (c.toNat - 65536) / 1024 ≤ 56319 := by omega
  have hs2 : 56320 ≤ 56320 + (c.toNat - 65536) % 1024
      ∧ 56320 + (c.toNat - 65536) % 1024 ≤ 57343 := by omega
  have hcomb2 : 65536 + (c.toNat - 65536) / 1024 * 1024 + (c.toNat - 65536) % 1024
      = c.toNat := by omega
  rw [decodeU, readHex4_hex4 hhi_lt]
  try dsimp only
  rw [if_pos hs1]
  try dsimp only
  rw [if_pos (⟨rfl, rfl⟩ : ('\\' : Char) = '\\' ∧ ('u' : Char) = 'u'), readHex4_hex4 hlo_lt]
  try dsimp only
  rw [if_pos hs2]
  simp only [Nat.add_sub_cancel_left]
  rw [hcomb2, Char.ofNat_toNat]

theorem parseStrBody_escChar (c : Char) (t : List Char) (F : Nat) :
    parseStrBody (F + 1) (escChar c ++ t)
      = (parseStrBody F t).map (fun p => (c :: p.1, p.2)) := by
  by_cases h1 : c = '"'
  · subst h1; simp [escChar, parseStrBody, escShort]
  by_cases h2 : c = '\\'
  · subst h2; simp [escChar, parseStrBody, escShort]
  by_cases h3 : c = '\x08'
  · subst h3; simp [escChar, parseStrBody, escShort]
  by_cases h4 : c = '\x0c'
  · subst h4; simp [escChar, parseStrBody, escShort]
  by_cases h5 : c = '\n'
  · subst h5; simp [escChar, parseStrBody, escShort]
  by_cases h6 : c = '\r'
  · subst h6; simp [escChar, parseStrBody, escShort]
  by_cases h7 : c = '\t'
  · subst h7; simp [escChar, parseStrBody, escShort]
  by_cases h8 : 32 ≤ c.toNat ∧ c.toNat ≤ 126
  · have hlt : ¬ c.toNat < 32 := by omega
    simp only [escChar, if_neg h1, if_neg h2, if_neg h3, if_neg h4, if_neg h5, if_neg h6,
      if_neg h7, if_pos h8, List.singleton_append]
    simp [parseStrBody, h1, h2, hlt]
  by_cases h9 : c.toNat < 65536
  · simp only [escChar, if_neg h1, if_neg h2, if_neg h3, if_neg h4, if_neg h5, if_neg h6,
      if_neg h7, if_neg h8, if_pos h9, List.cons_append]
    rw [parseStrBody]
    try dsimp only
    rw [if_neg (by decide : ¬ ('\\' : Char) = '"'), if_pos (rfl : ('\\' : Char) = '\\'),
      if_pos (rfl : ('u' : Char) = 'u'), decodeU_bmp h9]
  · simp only [escChar, if_neg h1, if_neg h2, if_neg h3, if_neg h4, if_neg h5, if_neg h6,
      if_neg h7, if_neg h8, if_neg h9, List.cons_append, List.append_assoc]
    rw [parseStrBody]
    try dsimp only
    rw [if_neg (by decide : ¬ ('\\' : Char) = '"'), if_pos (rfl : ('\\' : Char) = '\\'),
      if_pos (rfl : ('u' : Char) = 'u'), decodeU_pair h9]

theorem parseStrBody_escBody : ∀ (s rest : List Char) (F : Nat), s.length + 1 ≤ F →
    parseStrBody F (escBody s ++ '"' :: rest) = some (s, rest)
  | [], rest, F, h => by
    obtain ⟨G, rfl⟩ : ∃ G, F = G + 1 := ⟨F - 1, by omega⟩
    simp [escBody, parseStrBody]
  | c :: s, rest, F, h => by
    obtain ⟨G, rfl⟩ : ∃ G, F = G + 1 := ⟨F - 1, by omega⟩
    rw [escBody, List.append_assoc, parseStrBody_escChar,
      parseStrBody_escBody s rest G (by simp only [List.length_cons] at h; omega)]
    rfl

/-- A list of whitespace characters only. -/
def wsOnly (w : List Char) : Prop := ∀ c ∈ w, isWs c = true

/-- The rest of the input after a serialized value never starts with a
digit (it starts with a separator, bracket, or newline); this keeps the
number scanner from running past the value. -/
def restND (rest : List Char) : Prop :=
  ∀ c, rest.head? = some c → ¬ (48 ≤ c.toNat ∧ c.toNat ≤ 57)

theorem skipWs_not {c : Char} (h : isWs c = false) (t : List Char) :
    skipWs (c :: t) = c :: t := by
  simp [skipWs, h]

theorem skipWs_append {w : List Char} (h : wsOnly w) (t : List Char) :
    skipWs (w ++ t) = skipWs t := by
  induction w with
  | nil => simp
  | cons c r ih =>
    simp only [List.cons_append, skipWs, h c (List.mem_cons_self c r), if_true]
    exact ih (fun d hd => h d (List.mem_cons_of_mem c hd))

theorem wsOnly_ind (lvl : Nat) : wsOnly (ind lvl) := by
  intro c hc
  rw [ind] at hc
  have := List.eq_of_mem_replicate hc
  subst this
  decide

theorem wsOnly_nl_ind (lvl : Nat) : wsOnly ('\n' :: ind lvl) := by
  intro c hc
  rcases List.mem_cons.mp hc with rfl | hc
  · decide
  · exact wsOnly_ind lvl c hc

theorem restND_cons {c : Char} (hc : ¬ (48 ≤ c.toNat ∧ c.toNat ≤ 57)) (t : List Char) :
    restND (c :: t) := by
  intro d hd
  simp only [List.head?_cons, Option.some.injEq] at hd
  subst hd
  exact hc

theorem ws_not_digit {c : Char} (h : isWs c = true) : ¬ (48 ≤ c.toNat ∧ c.toNat ≤ 57) := by
  simp only [isWs, Bool.or_eq_true, decide_eq_true_eq] at h
  rcases h with ((h | h) | h) | h <;> subst h <;> decide

theorem restND_wsOnly_append {w t : List Char} (hw : wsOnly w) (ht : restND t) :
    restND (w ++ t) := by
  cases w with
  | nil => simpa using ht
  | cons c r =>
    intro d hd
    simp only [List.cons_append, List.head?_cons, Option.some.injEq] at hd
    subst hd
    exact ws_not_digit (hw c (List.mem_cons_self c r))

theorem hard_of_digit {c : Char} (h : 48 ≤ c.toNat ∧ c.toNat ≤ 57) :
    isWs c = false ∧ c ≠ ']' ∧ c ≠ rbrace := by
  refine ⟨?_, ?_, ?_⟩
  · simp only [isWs, Bool.or_eq_false_iff, decide_eq_false_iff_not]
    refine ⟨⟨⟨fun hc => ?_, fun hc => ?_⟩, fun hc => ?_⟩, fun hc => ?_⟩ <;>
      (subst hc; exact absurd h (by decide))
  · rintro rfl
    exact absurd h (by decide)
  · rintro rfl
    exact absurd h (by decide)

/-- Every serialized value starts with a non-whitespace character that is
also not a closing bracket or brace. -/
theorem serRaw_head (lvl : Nat) (v : Json) :
    ∃ c t, serRaw lvl v = c :: t ∧ isWs c = false ∧ c ≠ ']' ∧ c ≠ rbrace := by
  cases v with
  | null => exact ⟨'n', ['u', 'l', 'l'], by simp [serRaw], by decide, by decide, by decide⟩
  | bool b =>
    cases b with
    | true => exact ⟨'t', ['r', 'u', 'e'], by simp [serRaw], by decide, by decide, by decide⟩
    | false =>
      exact ⟨'f', ['a', 'l', 's', 'e'], by simp [serRaw], by decide, by decide, by decide⟩
  | num n =>
    by_cases hn : n < 0
    · exact ⟨'-', natToChars n.natAbs, by simp [serRaw, intToChars, hn], by decide,
        by decide, by decide⟩
    · obtain ⟨c, t, heq⟩ := natToChars_cons n.toNat
      have hd := natToChars_all_digits n.toNat c (heq ▸ List.mem_cons_self c t)
      obtain ⟨w1, w2, w3⟩ := hard_of_digit hd
      exact ⟨c, t, by simp [serRaw, intToChars, hn, heq], w1, w2, w3⟩
  | str s =>
    exact ⟨'"', escBody s ++ ['"'], by simp [serRaw], by decide, by decide, by decide⟩
  | arr xs =>
    cases xs with
    | nil => exact ⟨'[', [']'], by simp [serRaw], by decide, by decide, by decide⟩
    | cons x xs =>
      exact ⟨'[', '\n' :: (ind (lvl + 1) ++ serRaw (lvl + 1) x ++ serItems (lvl + 1) xs
        ++ '\n' :: (ind lvl ++ [']'])), by simp [serRaw], by decide, by decide, by decide⟩
  | obj kvs =>
    cases kvs with
    | nil => exact ⟨lbrace, [rbrace], by simp [serRaw], by decide, by decide, by decide⟩
    | cons m ms =>
      exact ⟨lbrace, '\n' :: (ind (lvl + 1) ++ serMember (lvl + 1) m
        ++ serMembersTail (lvl + 1) ms ++ '\n' :: (ind lvl ++ [rbrace])),
        by simp [serRaw], by decide, by decide, by decide⟩

theorem skipWs_serRaw (lvl : Nat) (v : Json) (t : List Char) :
    skipWs (serRaw lvl v ++ t) = serRaw lvl v ++ t := by
  obtain ⟨c, t2, heq, hws, _, _⟩ := serRaw_head lvl v
  rw [heq, List.cons_append, skipWs_not hws]

theorem escChar_length_pos (c : Char) : 1 ≤ (escChar c).length := by
  rw [escChar]
  split_ifs <;> simp [hex4]

theorem escBody_length_ge (s : List Char) : s.length ≤ (escBody s).length := by
  induction s with
  | nil => simp [escBody]
  | cons c r ih =>
    rw [escBody]
    simp only [List.length_append, List.length_cons]
    have := escChar_length_pos c
    omega

theorem skipWs_cons_ws {c : Char} (h : isWs c = true) (t : List Char) :
    skipWs (c :: t) = skipWs t := by
  simp [skipWs, h]

theorem skipWs_serMember (lvl : Nat) (m : Key × Json) (t : List Char) :
    skipWs (serMember lvl m ++ t) = serMember lvl m ++ t := by
  rw [serMember, List.cons_append, skipWs_not (by decide)]

theorem parseVal_ws_append {w : List Char} (hw : wsOnly w) (F : Nat) (s : List Char) :
    parseVal F (w ++ s) = parseVal F s := by
  cases F with
  | zero => simp [parseVal]
  | succ G => rw [parseVal, parseVal, skipWs_append hw]

theorem parseVal_ws_cons {c : Char} (h : isWs c = true) (F : Nat) (s : List Char) :
    parseVal F (c :: s) = parseVal F s := by
  have := parseVal_ws_append (w := [c]) (by
    intro d hd
    simp only [List.mem_singleton] at hd
    subst hd
    exact h) F s
  simpa using this

theorem parseStrBody_escBody_self (s t : List Char) :
    parseStrBody ((escBody s ++ '"' :: t).length + 1) (escBody s ++ '"' :: t)
      = some (s, t) := by
  apply parseStrBody_escBody
  simp only [List.length_append, List.length_cons]
  have := escBody_length_ge s
  omega

theorem digit_conds {c : Char} (h : 48 ≤ c.toNat ∧ c.toNat ≤ 57) :
    c ≠ '"' ∧ c ≠ lbrace ∧ c ≠ '[' ∧ c ≠ 't' ∧ c ≠ 'f' ∧ c ≠ 'n' ∧ c ≠ '-' := by
  refine ⟨?_, ?_, ?_, ?_, ?_, ?_, ?_⟩ <;> (rintro rfl; exact absurd h (by decide))

theorem roundtripAux : ∀ F : Nat,
    (∀ v lvl rest, jfuel v ≤ F → restND rest →
      parseVal F (serRaw lvl v ++ rest) = some (v, rest)) ∧
    (∀ lvl x xs w rest, wsOnly w → lfuel (x :: xs) ≤ F →
      parseItems F (serRaw lvl x ++ (serItems lvl xs ++ (w ++ ']' :: rest)))
        = some (x :: xs, rest)) ∧
    (∀ lvl k v ms w rest, wsOnly w → mfuel ((k, v) :: ms) ≤ F →
      parseMembers F (serMember lvl (k, v) ++ (serMembersTail lvl ms ++ (w ++ rbrace :: rest)))
        = some ((k, v) :: ms, rest)) := by
  intro F
  induction F using Nat.strong_induction_on with
  | _ F IH =>
    have hP : ∀ v lvl rest, jfuel v ≤ F → restND rest →
        parseVal F (serRaw lvl v ++ rest) = some (v, rest) := by
      intro v lvl rest hf hrest
      obtain ⟨G, rfl⟩ : ∃ G, F = G + 1 := ⟨F - 1, by have := jfuel_pos v; omega⟩
      cases v with
      | null =>
        rw [parseVal]
        simp only [serRaw, List.cons_append, List.nil_append]
        rw [skipWs_not (by decide) _]
        simp +decide [lbrace, rbrace]
      | bool b =>
        cases b with
        | true =>
          rw [parseVal]
          simp only [serRaw, List.cons_append, List.nil_append]
          rw [skipWs_not (by decide) _]
          simp +decide [lbrace, rbrace]
        | false =>
          rw [parseVal]
          simp only [serRaw, List.cons_append, List.nil_append]
          rw [skipWs_not (by decide) _]
          simp +decide [lbrace, rbrace]
      | num n =>
        by_cases hn : n < 0
        · rw [parseVal]
          simp only [serRaw, intToChars, if_pos hn, List.cons_append]
          rw [skipWs_not (by decide) _]
          obtain ⟨c, t, heq⟩ := natToChars_cons n.natAbs
          rw [heq, List.cons_append]
          have hd := natToChars_all_digits n.natAbs c (heq ▸ List.mem_cons_self c t)
          have hph := parseDigits_head heq hrest
          have habs : (n.natAbs : Int) = -n := by
            rw [← Int.natAbs_neg]
            exact Int.natAbs_of_nonneg (by omega)
          simp +decide [lbrace, rbrace, hd, hph, habs]
        · rw [parseVal]
          simp only [serRaw, intToChars, if_neg hn, List.cons_append]
          obtain ⟨c, t, heq⟩ := natToChars_cons n.toNat
          rw [heq, List.cons_append]
          have hd := natToChars_all_digits n.toNat c (heq ▸ List.mem_cons_self c t)
          obtain ⟨w1, _, _⟩ := hard_of_digit hd
          rw [skipWs_not w1 _]
          obtain ⟨c1, c2, c3, c4, c5, c6, c7⟩ := digit_conds hd
          have hph := parseDigits_head heq hrest
          simp only [if_neg c1, if_neg c2, if_neg c3, if_neg c4, if_neg c5, if_neg c6,
            if_neg c7, if_pos hd, hph]
          have hcast : (n.toNat : Int) = n := by omega
          simp [hcast]
      | str s =>
        rw [parseVal]
        simp only [serRaw, List.cons_append, List.append_assoc, List.singleton_append]
        rw [skipWs_not (by decide) _]
        have hlen : s.length + 1 ≤ (escBody s).length + (rest.length + 1) + 1 := by
          have := escBody_length_ge s
          omega
        simp +decide [parseStrBody_escBody s rest _ hlen]
      | arr xs =>
        cases xs with
        | nil =>
          rw [parseVal]
          simp only [serRaw, List.cons_append, List.nil_append]
          rw [skipWs_not (by decide) _]
          simp +decide [lbrace, rbrace, skipWs]
        | cons x xs =>
          rw [parseVal]
          simp only [serRaw, List.cons_append, List.append_assoc, List.singleton_append,
            List.nil_append]
          rw [skipWs_not (by decide) _]
          try dsimp only
          rw [if_neg (by decide : ¬ ('[' : Char) = '"'),
            if_neg (by decide : ¬ ('[' : Char) = lbrace), if_pos (rfl : ('[' : Char) = '[')]
          rw [skipWs_cons_ws (by decide), skipWs_append (wsOnly_ind (lvl + 1)), skipWs_serRaw]
          obtain ⟨c, t, heq, hws, hbr, hrb⟩ := serRaw_head (lvl + 1) x
          rw [heq, List.cons_append]
          try dsimp only
          rw [if_neg hbr, ← List.cons_append, ← heq]
          have hlf : lfuel (x :: xs) ≤ G := by
            simp only [jfuel] at hf
            omega
          have hq := (IH G (by omega)).2.1 (lvl + 1) x xs ('\n' :: ind lvl) rest
            (wsOnly_nl_ind lvl) hlf
          simp only [List.cons_append] at hq
          rw [hq]
          rfl
      | obj kvs =>
        cases kvs with
        | nil =>
          rw [parseVal]
          simp only [serRaw, List.cons_append, List.nil_append]
          rw [skipWs_not (by decide : isWs lbrace = false) _]
          simp +decide [lbrace, rbrace, skipWs]
        | cons m ms =>
          cases m with
          | mk k v =>
            rw [parseVal]
            simp only [serRaw, List.cons_append, List.append_assoc, List.singleton_append,
              List.nil_append]
            rw [skipWs_not (by decide : isWs lbrace = false) _]
            try dsimp only
            rw [if_neg (by decide : ¬ lbrace = '"'), if_pos (rfl : lbrace = lbrace)]
            rw [skipWs_cons_ws (by decide), skipWs_append (wsOnly_ind (lvl + 1)),
              skipWs_serMember]
            simp only [serMember, List.cons_append, List.append_assoc]
            try dsimp only
            rw [if_neg (by decide : ¬ ('"' : Char) = rbrace)]
            have hmf : mfuel ((k, v) :: ms) ≤ G := by
              simp only [jfuel] at hf
              omega
            have hr := (IH G (by omega)).2.2 (lvl + 1) k v ms ('\n' :: ind lvl) rest
              (wsOnly_nl_ind lvl) hmf
            simp only [serMember, List.cons_append, List.append_assoc] at hr
            rw [hr]
            rfl
    have hQ : ∀ lvl x xs w rest, wsOnly w → lfuel (x :: xs) ≤ F →
        parseItems F (serRaw lvl x ++ (serItems lvl xs ++ (w ++ ']' :: rest)))
          = some (x :: xs, rest) := by
      intro lvl x xs w rest hw hf
      obtain ⟨G, rfl⟩ : ∃ G, F = G + 1 := ⟨F - 1, by have := lfuel_pos (x :: xs); omega⟩
      rw [parseItems]
      cases xs with
      | nil =>
        have hrn : restND (serItems lvl [] ++ (w ++ ']' :: rest)) := by
          simp only [serItems, List.nil_append]
          exact restND_wsOnly_append hw (restND_cons (by decide) rest)
        rw [hP x lvl _ (by simp only [lfuel] at hf; omega) hrn]
        simp only [serItems, List.nil_append]
        rw [skipWs_append hw, skipWs_not (by decide)]
        try dsimp only
        rw [if_neg (by decide : ¬ (']' : Char) = ','), if_pos (rfl : (']' : Char) = ']')]
      | cons y ys =>
        have hrn : restND (serItems lvl (y :: ys) ++ (w ++ ']' :: rest)) := by
          rw [serItems, List.cons_append]
          exact restND_cons (by decide) _
        rw [hP x lvl _ (by simp only [lfuel] at hf ⊢; omega) hrn]
        try dsimp only
        simp only [serItems, List.cons_append, List.append_assoc]
        rw [skipWs_not (by decide)]
        try dsimp only
        rw [if_pos (rfl : (',' : Char) = ',')]
        rw [skipWs_cons_ws (by decide), skipWs_append (wsOnly_ind lvl), skipWs_serRaw]
        have hlf2 : lfuel (y :: ys) ≤ G := by
          simp only [lfuel] at hf ⊢
          have := jfuel_pos x
          omega
        have hq2 := (IH G (by omega)).2.1 lvl y ys w rest hw hlf2
        rw [hq2]
        rfl
    have hR : ∀ lvl k v ms w rest, wsOnly w → mfuel ((k, v) :: ms) ≤ F →
        parseMembers F (serMember lvl (k, v)
          ++ (serMembersTail lvl ms ++ (w ++ rbrace :: rest)))
          = some ((k, v) :: ms, rest) := by
      intro lvl k v ms w rest hw hf
      obtain ⟨G, rfl⟩ : ∃ G, F = G + 1 := ⟨F - 1, by have := mfuel_pos ((k, v) :: ms); omega⟩
      have hrnd : restND (serMembersTail lvl ms ++ (w ++ rbrace :: rest)) := by
        cases ms with
        | nil =>
          simp only [serMembersTail, List.nil_append]
          exact restND_wsOnly_append hw (restND_cons (by decide) rest)
        | cons m2 ms2 =>
          rw [serMembersTail, List.cons_append]
          exact restND_cons (by decide) _
      simp only [serMember, List.cons_append, List.append_assoc]
      rw [parseMembers]
      try dsimp only
      rw [if_pos (rfl : ('"' : Char) = '"')]
      rw [parseStrBody_escBody_self]
      try dsimp only
      rw [skipWs_not (by decide)]
      try dsimp only
      rw [if_pos (rfl : (':' : Char) = ':')]
      rw [parseVal_ws_cons (by decide)]
      rw [hP v lvl _ (by simp only [mfuel] at hf; omega) hrnd]
      try dsimp only
      cases ms with
      | nil =>
        simp only [serMembersTail, List.nil_append]
        rw [skipWs_append hw, skipWs_not (by decide : isWs rbrace = false)]
        try dsimp only
        rw [if_neg (by decide : ¬ rbrace = ','), if_pos (rfl : rbrace = rbrace)]
      | cons m2 ms2 =>
        cases m2 with
        | mk k2 v2 =>
          simp only [serMembersTail, List.cons_append, List.append_assoc]
          rw [skipWs_not (by decide : isWs ',' = false)]
          try dsimp only
          rw [if_pos (rfl : (',' : Char) = ',')]
          rw [skipWs_cons_ws (by decide), skipWs_append (wsOnly_ind lvl), skipWs_serMember]
          have hmf2 : mfuel ((k2, v2) :: ms2) ≤ G := by
            simp only [mfuel] at hf ⊢
            have := jfuel_pos v
            omega
          have hr2 := (IH G (by omega)).2.2 lvl k2 v2 ms2 w rest hw hmf2
          rw [hr2]
          rfl
    exact ⟨hP, hQ, hR⟩

theorem jfuel_le_serRaw : ∀ v : Json, ∀ lvl, jfuel v ≤ (serRaw lvl v).length + 1 := by
  have main := json_mutual_ind
    (fun v => ∀ lvl, jfuel v ≤ (serRaw lvl v).length + 1)
    (fun xs => ∀ lvl, lfuel xs ≤ (serItems lvl xs).length + 1)
    (fun ms => ∀ lvl, mfuel ms ≤ (serMembersTail lvl ms).length + 1)
    (by intro lvl; simp [jfuel, serRaw])
    (by intro b lvl; cases b <;> simp [jfuel, serRaw])
    (by intro n lvl; simp only [jfuel]; omega)
    (by intro s lvl; simp only [jfuel]; omega)
    (by
      intro xs hPL lvl
      cases xs with
      | nil => simp [jfuel, lfuel, serRaw]
      | cons x xs2 =>
        have h := hPL (lvl + 1)
        simp only [jfuel, lfuel, serRaw, serItems, List.length_cons, List.length_append,
          ind, List.length_replicate] at h ⊢
        omega)
    (by
      intro kvs hPM lvl
      cases kvs with
      | nil => simp [jfuel, mfuel, serRaw]
      | cons m ms =>
        have h := hPM (lvl + 1)
        have hb : (serRaw lvl (.obj (m :: ms))).length
            = (serMembersTail (lvl + 1) (m :: ms)).length + 2 * lvl + 2 := by
          simp only [serRaw, serMembersTail, serMember, List.length_cons, List.length_append,
            ind, List.length_replicate, List.length_singleton, List.length_nil]
          ring
        have hj : jfuel (.obj (m :: ms)) = 1 + mfuel (m :: ms) := by simp [jfuel]
        omega)
    (by intro lvl; simp [lfuel, serItems])
    (by
      intro x xs hx hxs lvl
      have h1 := hx lvl
      have h2 := hxs lvl
      simp only [lfuel, serItems, List.length_cons, List.length_append, ind,
        List.length_replicate] at h1 h2 ⊢
      omega)
    (by intro lvl; simp [mfuel, serMembersTail])
    (by
      intro m ms hm hms lvl
      have h1 := hm lvl
      have h2 := hms lvl
      simp only [mfuel, serMembersTail, serMember, List.length_cons, List.length_append,
        ind, List.length_replicate] at h1 h2 ⊢
      omega)
  exact main.1

/-- Parsing back a sorted, indented serialization (plus the trailing
newline `Config.dump` writes) recovers the canonicalized value. -/
theorem jsonLoad_dumps (v : Json) : jsonLoad (dumps v ++ ['\n']) = some (canon v) := by
  have hf : jfuel (canon v) ≤ (dumps v ++ ['\n']).length + 1 := by
    have := jfuel_le_serRaw (canon v) 0
    simp only [dumps, List.length_append, List.length_cons, List.length_nil] at this ⊢
    omega
  have hp := (roundtripAux ((dumps v ++ ['\n']).length + 1)).1 (canon v) 0 ['\n'] hf
    (restND_cons (by decide) [])
  rw [jsonLoad]
  simp only [dumps] at hp ⊢
  rw [hp]
  simp [skipWs, isWs]

/-- The filesystem state seen by `Config.dump` / `Config.load`: a set of
existing directories and a mapping from file paths to contents. -/
structure FS where
  dirs : List (List Char)
  files : List (List Char × List Char)

/-- The `OSError` subclasses raised by the modeled `os` / `open` calls. -/
inductive OSErr where
  | enoent
  | eexist
  | enotdir
  | eisdir
deriving DecidableEq

/-- `p[:i]` where `i` is one past the last slash (the raw head used by
`posixpath.split`); empty when `p` has no slash. -/
def upToLastSlash (p : List Char) : List Char :=
  (p.reverse.dropWhile (fun c => c ≠ '/')).reverse

/-- `p[i:]` where `i` is one past the last slash (the tail of
`posixpath.split`). -/
def afterLastSlash (p : List Char) : List Char :=
  (p.reverse.takeWhile (fun c => c ≠ '/')).reverse

/-- `posixpath.split`: split around the last slash, stripping the head's
trailing slashes unless the head is all slashes. -/
def splitPath (p : List Char) : List Char × List Char :=
  let head := upToLastSlash p
  let tail := afterLastSlash p
  if head ≠ [] ∧ head.any (fun c => c ≠ '/') then
    ((head.reverse.dropWhile (fun c => c = '/')).reverse, tail)
  else (head, tail)

/-- `posixpath.dirname` (implemented separately in Python but equal to
the head of `posixpath.split`). -/
def dirname (p : List Char) : List Char := (splitPath p).1

/-- Association lookup for the file table. -/
def lookupFile : List (List Char × List Char) → List Char → Option (List Char)
  | [], _ => none
  | (q, c) :: r, p => if q = p then some c else lookupFile r p

/-- Write or overwrite one file entry. -/
def setFile : List (List Char × List Char) → List Char → List Char
    → List (List Char × List Char)
  | [], p, c => [(p, c)]
  | (q, c0) :: r, p, c => if q = p then (q, c) :: r else (q, c0) :: setFile r p c

/-- `os.path.exists`; the empty path never exists, as in Python. -/
def existsPath (fs : FS) (p : List Char) : Bool :=
  if p = [] then false
  else if p ∈ fs.dirs then true
  else (lookupFile fs.files p).isSome

/-- `os.mkdir`: fails on the empty path, an existing path, or a missing
or non-directory parent; errors carry the (unchanged) filesystem. -/
def mkdir (fs : FS) (d : List Char) : Except (OSErr × FS) FS :=
  if d = [] then .error (.enoent, fs)
  else if existsPath fs d then .error (.eexist, fs)
  else if dirname d = [] ∨ dirname d ∈ fs.dirs then .ok ⟨d :: fs.dirs, fs.files⟩
  else if (lookupFile fs.files (dirname d)).isSome then .error (.enotdir, fs)
  else .error (.enoent, fs)

/-- `os.makedirs(name)` with `exist_ok=False`: split off the last
component, recursively create the head when it is missing (ignoring a
`FileExistsError` from the recursion, as CPython does), then `mkdir` the
full path.  Recursion depth is bounded by the path length, which always
suffices; the `tail == curdir` special case for paths ending in `.` is
outside the modeled path shapes. -/
def makedirsAux : Nat → FS → List Char → Except (OSErr × FS) FS
  | 0, fs, _ => .error (.enoent, fs)
  | fuel + 1, fs, name =>
    let hd0 := (splitPath name).1
    let tl0 := (splitPath name).2
    let hd := if tl0 = [] then (splitPath hd0).1 else hd0
    let tl := if tl0 = [] then (splitPath hd0).2 else tl0
    if hd ≠ [] ∧ tl ≠ [] ∧ ¬ existsPath fs hd then
      match makedirsAux fuel fs hd with
      | .error (.eexist, fs2) => mkdir fs2 name
      | .error e => .error e
      | .ok fs2 => mkdir fs2 name
    else mkdir fs name

def makedirs (fs : FS) (name : List Char) : Except (OSErr × FS) FS :=
  makedirsAux (name.length + 1) fs name

/-- `open(p, 'w')` followed by writing `content` (truncate mode). -/
def writeFile (fs : FS) (p : List Char) (content : List Char) : Except (OSErr × FS) FS :=
  if p = [] then .error (.enoent, fs)
  else if p ∈ fs.dirs then .error (.eisdir, fs)
  else if dirname p = [] ∨ dirname p ∈ fs.dirs then
    .ok ⟨fs.dirs, setFile fs.files p content⟩
  else if (lookupFile fs.files (dirname p)).isSome then .error (.enotdir, fs)
  else .error (.enoent, fs)

/-- `open(p, 'r')` followed by reading the whole file. -/
def readFile (fs : FS) (p : List Char) : Except OSErr (List Char) :=
  if p ∈ fs.dirs then .error .eisdir
  else
    match lookupFile fs.files p with
    | some c => .ok c
    | none => .error .enoent

/-- `Config`: after `__init__`, the instance `__dict__` is exactly the
mapping passed in (`self.__dict__.update(attrs)` on a fresh instance),
so the model carries that mapping. -/
structure Config where
  attrs : JObj

/-- Errors surfaced by `Config.load`: the `OSError` from `open`, a
`json.JSONDecodeError`, or `dict.update` applied to a non-object
document. -/
inductive LoadErr where
  | ioError (e : OSErr)
  | parseError
  | updateError
deriving DecidableEq

namespace Config

/-- `Config.load`: open the file, `json.load` it, build a `Config`.
A JSON document whose top level is not an object would reach
`dict.update` with a non-mapping argument; the claims never exercise
that path and the model reports it as `updateError`. -/
def load (filename : List Char) (fs : FS) : Except LoadErr Config :=
  match readFile fs filename with
  | .error e => .error (.ioError e)
  | .ok content =>
    match jsonLoad content with
    | none => .error .parseError
    | some (Json.obj kvs) => .ok ⟨kvs⟩
    | some _ => .error .updateError

/-- `Config.dump`: if the directory part of `filename` does not exist,
create it with `os.makedirs`; then write the sorted, 2-space-indented
JSON serialization followed by one newline.  (The `print` of the
destination notice goes to standard output only and has no filesystem
effect.) -/
def dump (c : Config) (filename : List Char) (fs : FS) : Except (OSErr × FS) FS :=
  let dn := dirname filename
  match (if existsPath fs dn then Except.ok fs else makedirs fs dn) with
  | .error e => .error e
  | .ok fs1 => writeFile fs1 filename (dumps (Json.obj c.attrs) ++ ['\n'])

/-- `Config.__repr__`: the same serialization `dump` produces, without
the trailing newline. -/
def repr (c : Config) : List Char := dumps (Json.obj c.attrs)

end Config

theorem dropWhile_append_all {p : Char → Bool} {l : List Char}
    (h : ∀ c ∈ l, p c = true) (r : List Char) :
    (l ++ r).dropWhile p = r.dropWhile p := by
  induction l with
  | nil => simp
  | cons c t ih =>
    simp only [List.cons_append, List.dropWhile, h c (List.mem_cons_self c t)]
    exact ih (fun d hd => h d (List.mem_cons_of_mem c hd))

theorem takeWhile_append_all {p : Char → Bool} {l : List Char}
    (h : ∀ c ∈ l, p c = true) (r : List Char) :
    (l ++ r).takeWhile p = l ++ r.takeWhile p := by
  induction l with
  | nil => simp
  | cons c t ih =>
    simp only [List.cons_append, List.takeWhile, h c (List.mem_cons_self c t)]
    exact congrArg (fun l => c :: l) (ih (fun d hd => h d (List.mem_cons_of_mem c hd)))

theorem upToLastSlash_append {a b : List Char} (hb : ∀ d ∈ b, d ≠ '/') :
    upToLastSlash (a ++ '/' :: b) = a ++ ['/'] := by
  rw [upToLastSlash, List.reverse_append, List.reverse_cons]
  rw [List.append_assoc, List.singleton_append]
  rw [dropWhile_append_all (fun d hd => by
    simp only [decide_eq_true_eq]
    exact hb d (List.mem_reverse.mp hd))]
  simp [List.dropWhile]

theorem afterLastSlash_append {a b : List Char} (hb : ∀ d ∈ b, d ≠ '/') :
    afterLastSlash (a ++ '/' :: b) = b := by
  rw [afterLastSlash, List.reverse_append, List.reverse_cons]
  rw [List.append_assoc, List.singleton_append]
  rw [takeWhile_append_all (fun d hd => by
    simp only [decide_eq_true_eq]
    exact hb d (List.mem_reverse.mp hd))]
  simp [List.takeWhile]

theorem upToLastSlash_noslash {s : List Char} (hs : ∀ c ∈ s, c ≠ '/') :
    upToLastSlash s = [] := by
  rw [upToLastSlash, ← List.append_nil s.reverse,
    dropWhile_append_all (fun d hd => by simpa using hs d (List.mem_reverse.mp hd))]
  simp

theorem afterLastSlash_noslash {s : List Char} (hs : ∀ c ∈ s, c ≠ '/') :
    afterLastSlash s = s := by
  rw [afterLastSlash, ← List.append_nil s.reverse,
    takeWhile_append_all (fun d hd => by simpa using hs d (List.mem_reverse.mp hd))]
  simp

theorem splitPath_noslash {s : List Char} (hs : ∀ c ∈ s, c ≠ '/') :
    splitPath s = ([], s) := by
  rw [splitPath]
  simp only [upToLastSlash_noslash hs, afterLastSlash_noslash hs]
  simp

theorem splitPath_append {a b : List Char} {c : Char} {t : List Char}
    (ha : a.reverse = c :: t) (hc : c ≠ '/') (hb : ∀ d ∈ b, d ≠ '/') :
    splitPath (a ++ '/' :: b) = (a, b) := by
  rw [splitPath]
  simp only [upToLastSlash_append hb, afterLastSlash_append hb]
  have hcmem : c ∈ a := List.mem_reverse.mp (ha ▸ List.mem_cons_self c t)
  have hcond : (a ++ ['/'] ≠ [] ∧ (a ++ ['/']).any (fun d => d ≠ '/')) := by
    constructor
    · simp
    · refine List.any_eq_true.mpr ⟨c, List.mem_append_left _ hcmem, by

        simp [hc]⟩
  rw [if_pos hcond]
  have hstep1 : List.dropWhile (fun d => decide (d = '/')) ('/' :: a.reverse)
      = List.dropWhile (fun d => decide (d = '/')) a.reverse := by
    simp [List.dropWhile]
  have hstep2 : List.dropWhile (fun d => decide (d = '/')) a.reverse = c :: t := by
    rw [ha]
    simp [List.dropWhile, hc]
  have hstrip : ((a ++ ['/']).reverse.dropWhile (fun d => decide (d = '/'))).reverse = a := by
    rw [List.reverse_append, List.reverse_singleton, List.singleton_append, hstep1, hstep2,
      ← ha, List.reverse_reverse]
  rw [hstrip]

/-- A well-formed path segment: nonempty and slash-free. -/
def goodSeg (s : List Char) : Prop := s ≠ [] ∧ ∀ c ∈ s, c ≠ '/'

/-- Join path segments with `/` separators. -/
def joinPath : List (List Char) → List Char
  | [] => []
  | [s] => s
  | s :: ss => s ++ '/' :: joinPath ss

/-- All nonempty prefixes of a segment list, joined: the directories
`os.makedirs` creates, outermost first. -/
def ancestors : List (List Char) → List (List Char)
  | [] => []
  | s :: ss => s :: (ancestors ss).map (fun a => s ++ '/' :: a)

theorem joinPath_cons {s : List Char} {ss : List (List Char)} (h : ss ≠ []) :
    joinPath (s :: ss) = s ++ '/' :: joinPath ss := by
  cases ss with
  | nil => exact absurd rfl h
  | cons t ts => rfl

theorem joinPath_ne_nil {segs : List (List Char)} (h : segs ≠ [])
    (hg : ∀ s ∈ segs, goodSeg s) : joinPath segs ≠ [] := by
  cases segs with
  | nil => exact absurd rfl h
  | cons s ss =>
    have hs := (hg s (List.mem_cons_self s ss)).1
    cases ss with
    | nil =>
      simpa [joinPath] using hs
    | cons t ts =>
      rw [joinPath_cons (by simp)]
      simp [hs]

theorem joinPath_snoc {segs : List (List Char)} {b : List Char} (h : segs ≠ []) :
    joinPath (segs ++ [b]) = joinPath segs ++ '/' :: b := by
  induction segs with
  | nil => exact absurd rfl h
  | cons s ss ih =>
    cases ss with
    | nil => rfl
    | cons t ts =>
      rw [List.cons_append, joinPath_cons (by simp), joinPath_cons (by simp), ih (by simp)]
      simp

theorem joinPath_rev_head {segs : List (List Char)} (h : segs ≠ [])
    (hg : ∀ s ∈ segs, goodSeg s) :
    ∃ c t, (joinPath segs).reverse = c :: t ∧ c ≠ '/' := by
  induction segs with
  | nil => exact absurd rfl h
  | cons s ss ih =>
    cases ss with
    | nil =>
      have hs := hg s (List.mem_cons_self s [])
      obtain ⟨c, t, heq⟩ : ∃ c t, s.reverse = c :: t := by
        cases hrev : s.reverse with
        | nil => exact absurd (by simpa using congrArg List.reverse hrev) hs.1
        | cons c t => exact ⟨c, t, rfl⟩
      refine ⟨c, t, by simpa [joinPath] using heq, ?_⟩
      exact hs.2 c (List.mem_reverse.mp (heq ▸ List.mem_cons_self c t))
    | cons t2 ts =>
      obtain ⟨c, t, heq, hc⟩ := ih (by simp) (fun x hx => hg x (List.mem_cons_of_mem s hx))
      refine ⟨c, t ++ '/' :: s.reverse, ?_, hc⟩
      rw [joinPath_cons (by simp), List.reverse_append, List.reverse_cons, heq]
      simp

theorem splitPath_join_snoc {segs : List (List Char)} {b : List Char} (h : segs ≠ [])
    (hg : ∀ s ∈ segs, goodSeg s) (hb : ∀ c ∈ b, c ≠ '/') :
    splitPath (joinPath (segs ++ [b])) = (joinPath segs, b) := by
  obtain ⟨c, t, heq, hc⟩ := joinPath_rev_head h hg
  rw [joinPath_snoc h]
  exact splitPath_append heq hc hb

theorem ancestors_snoc {segs : List (List Char)} {b : List Char} (h : segs ≠ []) :
    ancestors (segs ++ [b]) = ancestors segs ++ [joinPath (segs ++ [b])] := by
  induction segs with
  | nil => exact absurd rfl h
  | cons s ss ih =>
    cases ss with
    | nil => rfl
    | cons t2 ts =>
      rw [List.cons_append, ancestors, ih (by simp), ancestors]
      rw [joinPath_cons (h := by simp)]
      simp [ancestors, List.map_map, Function.comp, List.cons_append]

theorem mem_ancestors_self {segs : List (List Char)} (h : segs ≠ []) :
    joinPath segs ∈ ancestors segs := by
  induction segs using List.reverseRecOn with
  | nil => exact absurd rfl h
  | append_singleton init last ih =>
    cases hinit : init with
    | nil => simp [hinit, ancestors, joinPath]
    | cons s ss =>
      rw [← hinit, ancestors_snoc (by simp [hinit])]
      exact List.mem_append_right _ (List.mem_singleton.mpr rfl)

theorem ancestors_length_le {segs : List (List Char)} :
    ∀ a ∈ ancestors segs, a.length ≤ (joinPath segs).length := by
  induction segs with
  | nil => simp [ancestors]
  | cons s ss ih =>
    intro a ha
    rw [ancestors] at ha
    rcases List.mem_cons.mp ha with rfl | ha
    · cases ss with
      | nil => simp [joinPath]
      | cons t2 ts =>
        rw [joinPath_cons (by simp)]
        simp
    · obtain ⟨a2, ha2, rfl⟩ := List.mem_map.mp ha
      have hss : ss ≠ [] := by
        rintro rfl
        simp [ancestors] at ha2
      rw [joinPath_cons hss]
      have := ih a2 ha2
      simp only [List.length_append, List.length_cons]
      omega

theorem segs_length_le_joinPath {segs : List (List Char)}
    (hg : ∀ s ∈ segs, goodSeg s) : segs.length ≤ (joinPath segs).length + 1 := by
  induction segs with
  | nil => simp
  | cons s ss ih =>
    have hs := (hg s (List.mem_cons_self s ss)).1
    have hlen : 1 ≤ s.length := by
      cases s with
      | nil => exact absurd rfl hs
      | cons c t => simp
    cases ss with
    | nil => simpa [joinPath] using hlen
    | cons t2 ts =>
      rw [joinPath_cons (by simp)]
      have := ih (fun x hx => hg x (List.mem_cons_of_mem s hx))
      simp only [List.length_cons, List.length_append] at this ⊢
      omega

theorem existsPath_false_elim {fs : FS} {p : List Char} (hp : p ≠ [])
    (h : existsPath fs p = false) :
    p ∉ fs.dirs ∧ lookupFile fs.files p = none := by
  rw [existsPath, if_neg hp] at h
  by_cases h2 : p ∈ fs.dirs
  · rw [if_pos h2] at h
    exact absurd h (by simp)
  · rw [if_neg h2] at h
    exact ⟨h2, by simpa using h⟩

theorem existsPath_false_intro {fs : FS} {p : List Char} (h1 : p ∉ fs.dirs)
    (h2 : lookupFile fs.files p = none) : existsPath fs p = false := by
  by_cases hp : p = []
  · simp [existsPath, hp]
  · rw [existsPath, if_neg hp, if_neg h1, h2]
    rfl

theorem makedirsAux_ok : ∀ (segs : List (List Char)) (fs : FS) (fuel : Nat),
    segs ≠ [] → (∀ s ∈ segs, goodSeg s) →
    (∀ a ∈ ancestors segs, existsPath fs a = false) →
    segs.length ≤ fuel →
    makedirsAux fuel fs (joinPath segs)
      = .ok ⟨(ancestors segs).reverse ++ fs.dirs, fs.files⟩ := by
  intro segs
  induction segs using List.reverseRecOn with
  | nil => intro fs fuel h; exact absurd rfl h
  | append_singleton init b ih =>
    intro fs fuel _ hg hanc hfuel
    have hgb : goodSeg b := hg b (List.mem_append_right _ (List.mem_singleton.mpr rfl))
    by_cases hinit : init = []
    · subst hinit
      simp only [List.nil_append] at hg hanc hfuel ⊢
      obtain ⟨f, rfl⟩ : ∃ f, fuel = f + 1 := ⟨fuel - 1, by simp at hfuel; omega⟩
      have hjb : joinPath [b] = b := rfl
      have hsb : splitPath b = ([], b) := splitPath_noslash hgb.2
      rw [hjb, makedirsAux]
      simp only [hsb]
      rw [if_neg (by
        simp only [hgb.1, ne_eq]
        intro hcon
        exact hcon.1 rfl)]
      have hex : existsPath fs b = false := hanc b (by simp [ancestors])
      rw [mkdir, if_neg hgb.1, hex]
      simp only [Bool.false_eq_true, if_false]
      rw [if_pos (Or.inl (by rw [dirname, hsb]))]
      simp [ancestors]
    · have hne : init ≠ [] := hinit
      obtain ⟨f, rfl⟩ : ∃ f, fuel = f + 1 := ⟨fuel - 1, by
        simp only [List.length_append, List.length_singleton] at hfuel
        omega⟩
      have hgi : ∀ s ∈ init, goodSeg s := fun s hs => hg s (List.mem_append_left _ hs)
      have hsplit : splitPath (joinPath (init ++ [b])) = (joinPath init, b) :=
        splitPath_join_snoc hne hgi hgb.2
      have hanci : ∀ a ∈ ancestors init, existsPath fs a = false := fun a ha =>
        hanc a (by rw [ancestors_snoc hne]; exact List.mem_append_left _ ha)
      have hji : joinPath init ≠ [] := joinPath_ne_nil hne hgi
      have hexi : existsPath fs (joinPath init) = false :=
        hanci _ (mem_ancestors_self hne)
      rw [makedirsAux]
      simp only [hsplit]
      simp only [if_neg hgb.1]
      rw [if_pos (by
        refine ⟨hji, hgb.1, ?_⟩
        rw [hexi]
        simp)]
      rw [ih fs f hne hgi hanci (by
        simp only [List.length_append, List.length_singleton] at hfuel
        omega)]
      have hname : joinPath (init ++ [b]) ∈ ancestors (init ++ [b]) :=
        mem_ancestors_self (by simp)
      have hexn : existsPath fs (joinPath (init ++ [b])) = false := hanc _ hname
      have hnn : joinPath (init ++ [b]) ≠ [] :=
        joinPath_ne_nil (by simp) hg
      obtain ⟨hnd, hnf⟩ := existsPath_false_elim hnn hexn
      have hlong : joinPath (init ++ [b]) ∉ (ancestors init).reverse := by
        intro hmem
        have hmem2 := List.mem_reverse.mp hmem
        have hle := ancestors_length_le _ hmem2
        rw [joinPath_snoc hne] at hle
        simp only [List.length_append, List.length_cons] at hle
        omega
      have hex2 : existsPath ⟨(ancestors init).reverse ++ fs.dirs, fs.files⟩
          (joinPath (init ++ [b])) = false := by
        refine existsPath_false_intro ?_ hnf
        intro hmem
        rcases List.mem_append.mp hmem with hmem | hmem
        · exact hlong hmem
        · exact hnd hmem
      try dsimp only
      rw [mkdir, if_neg hnn, hex2]
      simp only [Bool.false_eq_true, if_false]
      rw [if_pos (Or.inr (by
        show dirname (joinPath (init ++ [b])) ∈ _
        rw [dirname, hsplit]
        exact List.mem_append_left _ (List.mem_reverse.mpr (mem_ancestors_self hne))))]
      rw [ancestors_snoc hne]
      simp

theorem lookupFile_setFile_self (files : List (List Char × List Char)) (p c : List Char) :
    lookupFile (setFile files p c) p = some c := by
  induction files with
  | nil => simp [setFile, lookupFile]
  | cons q r ih =>
    cases q with
    | mk q0 c0 =>
      by_cases hq : q0 = p
      · subst hq
        simp [setFile, lookupFile]
      · simp only [setFile, if_neg hq, lookupFile, if_neg hq]
        exact ih

theorem writeFile_ok_elim {fs : FS} {p content : List Char} {fs2 : FS}
    (h : writeFile fs p content = .ok fs2) :
    fs2 = ⟨fs.dirs, setFile fs.files p content⟩ ∧ p ∉ fs.dirs := by
  rw [writeFile] at h
  by_cases h1 : p = []
  · rw [if_pos h1] at h
    exact absurd h (by simp)
  rw [if_neg h1] at h
  by_cases h2 : p ∈ fs.dirs
  · rw [if_pos h2] at h
    exact absurd h (by simp)
  rw [if_neg h2] at h
  by_cases h3 : dirname p = [] ∨ dirname p ∈ fs.dirs
  · rw [if_pos h3] at h
    simp only [Except.ok.injEq] at h
    exact ⟨h.symm, h2⟩
  rw [if_neg h3] at h
  by_cases h4 : (lookupFile fs.files (dirname p)).isSome
  · rw [if_pos h4] at h
    exact absurd h (by simp)
  · rw [if_neg h4] at h
    exact absurd h (by simp)

/-- C9: for a destination with no directory component, `dump` computes
`dirname = ""`, finds it does not exist, and calls `os.makedirs("")`,
which raises `FileNotFoundError` before anything is written. -/
theorem dump_bare_filename_raises (c : Config) (filename : List Char) (fs : FS)
    (h : dirname filename = []) :
    Config.dump c filename fs = .error (.enoent, fs) := by
  rw [Config.dump]
  simp only [h]
  have hex : existsPath fs [] = false := by simp [existsPath]
  rw [hex]
  simp only [Bool.false_eq_true, if_false]
  have hmk : makedirs fs [] = .error (.enoent, fs) := by
    rw [makedirs]
    simp only [List.length_nil]
    rw [makedirsAux]
    have hsp : splitPath ([] : List Char) = ([], []) := rfl
    simp only [hsp]
    rw [if_neg (by
      intro hcon
      exact hcon.1 rfl)]
    rw [mkdir, if_pos rfl]
  rw [hmk]

/-- C5: dumping to a path whose parent directories do not yet exist
creates every missing parent directory and writes the serialized
mapping; the file is then readable, and `load` returns the key-sorted
canonicalized mapping. -/
theorem dump_creates_parents (c : Config) (segs : List (List Char)) (fname : List Char)
    (fs : FS) (hne : segs ≠ []) (hg : ∀ s ∈ segs, goodSeg s) (hgf : goodSeg fname)
    (hanc : ∀ a ∈ ancestors segs, existsPath fs a = false)
    (hfile : existsPath fs (joinPath (segs ++ [fname])) = false) :
    Config.dump c (joinPath (segs ++ [fname])) fs
      = .ok ⟨(ancestors segs).reverse ++ fs.dirs,
          setFile fs.files (joinPath (segs ++ [fname]))
            (dumps (Json.obj c.attrs) ++ ['\n'])⟩
    ∧ (∀ a ∈ ancestors segs, a ∈ (ancestors segs).reverse ++ fs.dirs)
    ∧ readFile ⟨(ancestors segs).reverse ++ fs.dirs,
          setFile fs.files (joinPath (segs ++ [fname]))
            (dumps (Json.obj c.attrs) ++ ['\n'])⟩ (joinPath (segs ++ [fname]))
        = .ok (dumps (Json.obj c.attrs) ++ ['\n'])
    ∧ Config.load (joinPath (segs ++ [fname])) ⟨(ancestors segs).reverse ++ fs.dirs,
          setFile fs.files (joinPath (segs ++ [fname]))
            (dumps (Json.obj c.attrs) ++ ['\n'])⟩
        = .ok ⟨sortPairs (canonMembers c.attrs)⟩ := by
  have hsp : splitPath (joinPath (segs ++ [fname])) = (joinPath segs, fname) :=
    splitPath_join_snoc hne hg hgf.2
  have hdn : dirname (joinPath (segs ++ [fname])) = joinPath segs := by rw [dirname, hsp]
  have hexd : existsPath fs (joinPath segs) = false := hanc _ (mem_ancestors_self hne)
  have hmk : makedirs fs (joinPath segs)
      = .ok ⟨(ancestors segs).reverse ++ fs.dirs, fs.files⟩ := by
    rw [makedirs]
    refine makedirsAux_ok segs fs _ hne hg hanc ?_
    have := segs_length_le_joinPath hg
    omega
  have hnn : joinPath (segs ++ [fname]) ≠ [] := by
    refine joinPath_ne_nil (by simp) ?_
    intro s hs
    rcases List.mem_append.mp hs with h1 | h1
    · exact hg s h1
    · rw [List.mem_singleton.mp h1]
      exact hgf
  obtain ⟨hnd, hnf⟩ := existsPath_false_elim hnn hfile
  have hlong : joinPath (segs ++ [fname]) ∉ (ancestors segs).reverse := by
    intro hmem
    have hle := ancestors_length_le _ (List.mem_reverse.mp hmem)
    rw [joinPath_snoc hne] at hle
    simp only [List.length_append, List.length_cons] at hle
    omega
  have hpd : joinPath (segs ++ [fname]) ∉ (ancestors segs).reverse ++ fs.dirs := by
    intro hmem
    rcases List.mem_append.mp hmem with h1 | h1
    · exact hlong h1
    · exact hnd h1
  have hwrite : writeFile ⟨(ancestors segs).reverse ++ fs.dirs, fs.files⟩
      (joinPath (segs ++ [fname])) (dumps (Json.obj c.attrs) ++ ['\n'])
      = .ok ⟨(ancestors segs).reverse ++ fs.dirs,
          setFile fs.files (joinPath (segs ++ [fname]))
            (dumps (Json.obj c.attrs) ++ ['\n'])⟩ := by
    rw [writeFile, if_neg hnn, if_neg hpd, if_pos (Or.inr (by
      rw [hdn]
      exact List.mem_append_left _ (List.mem_reverse.mpr (mem_ancestors_self hne))))]
  have hread : readFile ⟨(ancestors segs).reverse ++ fs.dirs,
      setFile fs.files (joinPath (segs ++ [fname]))
        (dumps (Json.obj c.attrs) ++ ['\n'])⟩ (joinPath (segs ++ [fname]))
      = .ok (dumps (Json.obj c.attrs) ++ ['\n']) := by
    rw [readFile, if_neg hpd, lookupFile_setFile_self]
  refine ⟨?_, ?_, hread, ?_⟩
  · rw [Config.dump]
    simp only [hdn, hexd]
    simp only [Bool.false_eq_true, if_false]
    rw [hmk]
    exact hwrite
  · intro a ha
    exact List.mem_append_left _ (List.mem_reverse.mpr ha)
  · rw [Config.load, hread]
    try dsimp only
    rw [jsonLoad_dumps]
    simp [canon]

/-- C1: for a well-formed attribute mapping, dumping to a path and
loading it back yields a store whose attribute mapping is Python-equal
to the original: the same keys with the same values (nested
dictionaries compare order-insensitively, as Python `==` does). -/
theorem dump_load_roundtrip (c : Config) (filename : List Char) (fs fs2 : FS)
    (hwf : wf (Json.obj c.attrs) = true)
    (hdump : Config.dump c filename fs = .ok fs2) :
    ∃ c2, Config.load filename fs2 = .ok c2
      ∧ jeqB (Json.obj c2.attrs) (Json.obj c.attrs) = true := by
  rw [Config.dump] at hdump
  cases hstep : (if existsPath fs (dirname filename) then Except.ok fs
      else makedirs fs (dirname filename)) with
  | error e =>
    rw [hstep] at hdump
    exact absurd hdump (by simp)
  | ok fs1 =>
    rw [hstep] at hdump
    try dsimp only at hdump
    obtain ⟨hfs2, hnd⟩ := writeFile_ok_elim hdump
    subst hfs2
    refine ⟨⟨sortPairs (canonMembers c.attrs)⟩, ?_, ?_⟩
    · rw [Config.load]
      have hread : readFile ⟨fs1.dirs,
          setFile fs1.files filename (dumps (Json.obj c.attrs) ++ ['\n'])⟩ filename
          = .ok (dumps (Json.obj c.attrs) ++ ['\n']) := by
        rw [readFile, if_neg hnd, lookupFile_setFile_self]
      rw [hread]
      try dsimp only
      rw [jsonLoad_dumps]
      simp [canon]
    · have h := jeq_canon (Json.obj c.attrs) hwf
      simp only [canon] at h
      exact h

/-- C3 (amended): the bytes `dump` writes are exactly `__repr__`'s
output plus one trailing newline — so `__repr__` is the file content
without its final newline, not the identical byte sequence. -/
theorem repr_dump_amended (c : Config) (filename : List Char) (fs fs2 : FS)
    (hdump : Config.dump c filename fs = .ok fs2) :
    readFile fs2 filename = .ok (Config.repr c ++ ['\n']) := by
  rw [Config.dump] at hdump
  cases hstep : (if existsPath fs (dirname filename) then Except.ok fs
      else makedirs fs (dirname filename)) with
  | error e =>
    rw [hstep] at hdump
    exact absurd hdump (by simp)
  | ok fs1 =>
    rw [hstep] at hdump
    try dsimp only at hdump
    obtain ⟨hfs2, hnd⟩ := writeFile_ok_elim hdump
    subst hfs2
    rw [readFile, if_neg hnd, lookupFile_setFile_self]
    rfl

/-- C3 counterexample: dumping the empty mapping writes three bytes
(the serialization plus a newline) while `__repr__` returns only two, so
`__repr__` is not the exact byte sequence `dump` writes. -/
theorem repr_dump_counterexample :
    Config.dump ⟨[]⟩ ['d', '/', 'f'] ⟨[], []⟩
      = .ok ⟨[['d']], [(['d', '/', 'f'], Config.repr ⟨[]⟩ ++ ['\n'])]⟩
    ∧ Config.repr ⟨[]⟩ ++ ['\n'] ≠ Config.repr ⟨[]⟩ := by
  constructor
  · rfl
  · intro h
    have := congrArg List.length h
    simp at this

/-- C4 (amended): a missing file makes `load` fail with the underlying
I/O error (`FileNotFoundError` from `open`), not a parse error; a parse
error is raised exactly when the file exists but its contents are not
valid JSON. -/
theorem load_error_classification :
    (∀ (fs : FS) (path : List Char), lookupFile fs.files path = none → path ∉ fs.dirs →
      Config.load path fs = .error (.ioError .enoent))
    ∧ (∀ (fs : FS) (path content : List Char), lookupFile fs.files path = some content →
      path ∉ fs.dirs → jsonLoad content = none →
      Config.load path fs = .error .parseError) := by
  constructor
  · intro fs path hnf hnd
    rw [Config.load, readFile, if_neg hnd, hnf]
  · intro fs path content hf hnd hbad
    rw [Config.load, readFile, if_neg hnd, hf]
    try dsimp only
    rw [hbad]

/-- C4 counterexample: loading a missing path gives the I/O error, and
that error is not a parse error. -/
theorem load_missing_counterexample :
    Config.load ['x'] ⟨[], []⟩ = .error (.ioError .enoent)
    ∧ LoadErr.ioError .enoent ≠ LoadErr.parseError := by
  constructor
  · rfl
  · intro h
    cases h

theorem canonMembers_eq_map (ms : JObj) :
    canonMembers ms = ms.map (fun m => (m.1, canon m.2)) := by
  induction ms with
  | nil => simp [canonMembers]
  | cons m ms ih => simp [canonMembers, ih]

theorem sortPairs_nodupKeys_of_perm {A : JObj} (h : (A.map Prod.fst).Nodup) :
    ((sortPairs A).map Prod.fst).Nodup := by
  have hperm : ((sortPairs A).map Prod.fst).Perm (A.map Prod.fst) :=
    (sortPairs_perm A).map Prod.fst
  exact hperm.nodup_iff.mpr h

/-- C8: serialization is deterministic and order-insensitive — two
stores whose attribute mappings agree as mappings (same lookups, keys
unduplicated) produce byte-identical `__repr__` output, because keys are
always emitted in sorted order; and the two-key example serializes `"a"`
before `"b"`. -/
theorem repr_deterministic_sorted :
    (∀ c1 c2 : Config, nodupKeys c1.attrs = true → nodupKeys c2.attrs = true →
      (∀ k, lookupJ k c1.attrs = lookupJ k c2.attrs) → Config.repr c1 = Config.repr c2)
    ∧ Config.repr ⟨[(['b'], Json.num 1), (['a'], Json.num 2)]⟩
      = lbrace :: '\n' :: ' ' :: ' ' :: '"' :: 'a' :: '"' :: ':' :: ' ' :: '2' :: ',' ::
          '\n' :: ' ' :: ' ' :: '"' :: 'b' :: '"' :: ':' :: ' ' :: '1' :: '\n' :: [rbrace] := by
  constructor
  · intro c1 c2 hn1 hn2 hlk
    have hk1 : (c1.attrs.map Prod.fst).Nodup := nodupKeys_iff.mp hn1
    have hk2 : (c2.attrs.map Prod.fst).Nodup := nodupKeys_iff.mp hn2
    have hp1 : c1.attrs.Nodup := hk1.of_map
    have hp2 : c2.attrs.Nodup := hk2.of_map
    have hmemiff : ∀ p : Key × Json, p ∈ c1.attrs ↔ p ∈ c2.attrs := by
      rintro ⟨k, v⟩
      constructor
      · intro hmem
        exact mem_of_lookupJ_eq_some ((hlk k).symm.trans (lookupJ_eq_some_of_mem hmem hk1))
      · intro hmem
        exact mem_of_lookupJ_eq_some ((hlk k).trans (lookupJ_eq_some_of_mem hmem hk2))
    have hperm : c1.attrs.Perm c2.attrs :=
      (List.perm_ext_iff_of_nodup hp1 hp2).mpr hmemiff
    have hpermc : (canonMembers c1.attrs).Perm (canonMembers c2.attrs) := by
      rw [canonMembers_eq_map, canonMembers_eq_map]
      exact hperm.map _
    have hsorted : sortPairs (canonMembers c1.attrs) = sortPairs (canonMembers c2.attrs) := by
      refine sorted_keyNodup_eq ?_ (sortPairs_sorted _) (sortPairs_sorted _) ?_
      · exact ((sortPairs_perm _).trans hpermc).trans (sortPairs_perm _).symm
      · refine sortPairs_nodupKeys_of_perm ?_
        rw [canonMembers_eq_map]
        have : (c1.attrs.map (fun m => (m.1, canon m.2))).map Prod.fst
            = c1.attrs.map Prod.fst := by
          rw [List.map_map]
          rfl
        rw [this]
        exact hk1
    rw [Config.repr, Config.repr, dumps, dumps]
    simp only [canon, hsorted]
  · simp +decide [Config.repr, dumps, canon, canonMembers, sortPairs, insPair, keyLe,
      serRaw, serMember, serMembersTail, escBody, escChar, intToChars, natToChars,
      digitCh, ind, lbrace, rbrace, Int.toNat]

/-! ### The `Logger` class

`Logger.__init__` opens the output file for writing (truncating it) and sets
`self.infos = OrderedDict()`.  We model the state after construction by the
bytes written to the log file so far, the bytes printed to standard output,
and the ordered dict of series. -/

/-- A numeric value handed to `Logger.append`: Python distinguishes `int`
and `float` samples, and `torch.tensor` infers its dtype from them. -/
inductive Sample
  | int (n : Int)
  | float (q : ℚ)
deriving DecidableEq

/-- Whether a sample is a Python `float`. -/
def Sample.isFloat : Sample → Bool
  | .int _ => false
  | .float _ => true

/-- Numeric value of a sample, as an exact rational. -/
def Sample.toQ : Sample → ℚ
  | .int n => (n : ℚ)
  | .float q => q

/-- State of a `Logger`: the bytes written to `self.log_file`, the bytes
printed to standard output, and `self.infos` (an ordered dict of series,
insertion order preserved). -/
structure LoggerState where
  fileContent : List Char
  out : List Char
  infos : List (List Char × List Sample)
deriving DecidableEq

/-- `self.infos.setdefault(key, []).append(val)`: extend the series for
`key` in place, creating it at the end of the ordered dict if absent. -/
def addSample (k : List Char) (v : Sample) :
    List (List Char × List Sample) → List (List Char × List Sample)
  | [] => [(k, [v])]
  | (k', vs) :: rest =>
      if k' = k then (k', vs ++ [v]) :: rest else (k', vs) :: addSample k v rest

/-- `Logger.append` (src/utils.py lines 133-135). -/
def Logger.append (st : LoggerState) (k : List Char) (v : Sample) : LoggerState :=
  { st with infos := addSample k v st.infos }

/-- `torch.tensor(vals).mean().item()` as an exact rational (defined, and
only used, for nonempty `vals`). -/
def meanQ (vs : List Sample) : ℚ := (vs.map Sample.toQ).sum / vs.length

/-- Round a rational to the nearest integer, ties to even, as C `%f`
formatting of an exactly representable value does. -/
def rndHalfEven (x : ℚ) : Int :=
  if x - ⌊x⌋ < 1/2 then ⌊x⌋
  else if (1 : ℚ)/2 < x - ⌊x⌋ then ⌊x⌋ + 1
  else if ⌊x⌋ % 2 = 0 then ⌊x⌋ else ⌊x⌋ + 1

/-- Left-pad with zeros to six digits. -/
def padZeros6 (s : List Char) : List Char := List.replicate (6 - s.length) '0' ++ s

/-- Python `'%.6f' % q`: optional sign, integer part, point, and exactly
six fractional digits (a negative value that rounds to zero still gets a
minus sign, as CPython prints `-0.000000`). -/
def fmt6 (q : ℚ) : List Char :=
  (if q < 0 then ['-'] else []) ++
    natToChars ((rndHalfEven (q * 1000000)).natAbs / 1000000) ++
    '.' :: padZeros6 (natToChars ((rndHalfEven (q * 1000000)).natAbs % 1000000))

/-- `delimiter.join(msgs)`. -/
def joinWith (d : List Char) : List (List Char) → List Char
  | [] => []
  | [s] => s
  | s :: ss => s ++ d ++ joinWith d ss

/-- `torch.tensor(vals).mean()` raises a `RuntimeError` exactly when
`vals` is a nonempty list of `int`s: the tensor then has dtype `int64`,
for which `mean` is not implemented. -/
def seriesBad (vs : List Sample) : Bool := !vs.isEmpty && vs.all (fun s => !s.isFloat)

/-- `Logger.log` (src/utils.py lines 137-147): one `"<key> <mean>"` entry
per series in insertion order, joined by the delimiter; the joined message
plus a newline goes to the file and (via `print`) to standard output, and
`infos` is reset to an empty ordered dict.  `.error ()` models the
`RuntimeError` raised by `mean()` on an integer tensor, which aborts the
call before anything is written or cleared. -/
def Logger.log (st : LoggerState) (delim : List Char) : Except Unit LoggerState :=
  if st.infos.any (fun p => seriesBad p.2) then .error ()
  else
    let msg := joinWith delim (st.infos.map (fun p => p.1 ++ ' ' :: fmt6 (meanQ p.2)))
    .ok ⟨st.fileContent ++ msg ++ ['\n'], st.out ++ msg ++ ['\n'], []⟩

/-- `Logger.write` (src/utils.py lines 149-152). -/
def Logger.write (st : LoggerState) (msg : List Char) : LoggerState :=
  ⟨st.fileContent ++ msg ++ ['\n'], st.out ++ msg ++ ['\n'], st.infos⟩

/-- Perform a sequence of `Logger.append` calls, left to right. -/
def runAppends (st : LoggerState) : List (List Char × Sample) → LoggerState
  | [] => st
  | (k, v) :: rest => runAppends (Logger.append st k v) rest

/-- All samples appended to key `k`, in order. -/
def samplesOf (k : List Char) (evs : List (List Char × Sample)) : List Sample :=
  (evs.filter (fun e => e.1 = k)).map Prod.snd

/-- Keys in order of first occurrence. -/
def dedupFirst : List (List Char) → List (List Char)
  | [] => []
  | k :: rest => k :: (dedupFirst rest).filter (fun x => x ≠ k)

/-- The line `Logger.log` emits for the series of key `k`. -/
def lineOf (evs : List (List Char × Sample)) (k : List Char) : List Char :=
  k ++ ' ' :: fmt6 (meanQ (samplesOf k evs))

/-- The full message `Logger.log` joins from the per-series lines, one per
tracked key in first-seen order. -/
def msgOf (delim : List Char) (evs : List (List Char × Sample)) : List Char :=
  joinWith delim ((dedupFirst (evs.map Prod.fst)).map (lineOf evs))

theorem addSample_of_not_mem {k : List Char} {v : Sample}
    {l : List (List Char × List Sample)} (h : ∀ e ∈ l, e.1 ≠ k) :
    addSample k v l = l ++ [(k, [v])] := by
  induction l with
  | nil => rfl
  | cons e rest ih =>
    obtain ⟨k', vs⟩ := e
    have hne : k' ≠ k := h (k', vs) (List.mem_cons_self _ _)
    simp only [addSample, if_neg hne, List.cons_append]
    rw [ih (fun e he => h e (List.mem_cons_of_mem _ he))]

theorem addSample_map (f g : List Char → List Sample) (k : List Char) (v : Sample)
    (hf : ∀ x, x ≠ k → g x = f x) (hk : g k = f k ++ [v]) :
    ∀ ks : List (List Char), ks.Nodup → k ∈ ks →
      addSample k v (ks.map (fun x => (x, f x))) = ks.map (fun x => (x, g x)) := by
  intro ks
  induction ks with
  | nil => intro _ h; cases h
  | cons k0 rest ih =>
    intro hnd hmem
    rcases List.nodup_cons.mp hnd with ⟨hk0, hndr⟩
    by_cases h0 : k0 = k
    · subst h0
      simp only [List.map_cons, addSample]
      rw [if_pos trivial]
      congr 1
      · rw [hk]
      · refine List.map_congr_left ?_
        intro x hx
        rw [hf x (fun he => hk0 (he ▸ hx))]
    · have hmem' : k ∈ rest := by
        rcases List.mem_cons.mp hmem with h | h
        · exact absurd h.symm h0
        · exact h
      simp only [List.map_cons, addSample, if_neg h0]
      rw [ih hndr hmem', hf k0 h0]

theorem dedupFirst_mem_iff {k : List Char} :
    ∀ {l : List (List Char)}, k ∈ dedupFirst l ↔ k ∈ l := by
  intro l
  induction l with
  | nil => simp [dedupFirst]
  | cons k0 rest ih =>
    simp only [dedupFirst, List.mem_cons, List.mem_filter]
    constructor
    · rintro (rfl | ⟨h, _⟩)
      · exact Or.inl rfl
      · exact Or.inr (ih.mp h)
    · rintro (rfl | h)
      · exact Or.inl rfl
      · by_cases hk : k = k0
        · exact Or.inl hk
        · exact Or.inr ⟨ih.mpr h, by simp [hk]⟩

theorem dedupFirst_nodup : ∀ l : List (List Char), (dedupFirst l).Nodup := by
  intro l
  induction l with
  | nil => simp [dedupFirst]
  | cons k0 rest ih =>
    simp only [dedupFirst, List.nodup_cons]
    refine ⟨?_, ih.filter _⟩
    intro hmem
    have := (List.mem_filter.mp hmem).2
    simp at this

theorem dedupFirst_append_single (l : List (List Char)) (k : List Char) :
    dedupFirst (l ++ [k]) =
      if k ∈ dedupFirst l then dedupFirst l else dedupFirst l ++ [k] := by
  induction l with
  | nil => simp [dedupFirst]
  | cons k0 rest ih =>
    simp only [List.cons_append, dedupFirst, List.append_eq, ih]
    by_cases hmem : k ∈ dedupFirst rest
    · have hc : k ∈ k0 :: (dedupFirst rest).filter (fun x => x ≠ k0) := by
        rcases eq_or_ne k k0 with rfl | hne
        · exact List.mem_cons_self _ _
        · exact List.mem_cons_of_mem _ (List.mem_filter.mpr ⟨hmem, by simp [hne]⟩)
      rw [if_pos hmem, if_pos hc]
    · rw [if_neg hmem, List.filter_append]
      rcases eq_or_ne k k0 with rfl | hne
      · rw [if_pos (List.mem_cons_self _ _)]
        simp
      · have hc : k ∉ k0 :: (dedupFirst rest).filter (fun x => x ≠ k0) := by
          intro hc
          rcases List.mem_cons.mp hc with h | h
          · exact hne h
          · exact hmem (List.mem_filter.mp h).1
        rw [if_neg hc]
        simp [hne]

theorem samplesOf_append_single (k k' : List Char) (v : Sample)
    (evs : List (List Char × Sample)) :
    samplesOf k' (evs ++ [(k, v)]) =
      samplesOf k' evs ++ (if k = k' then [v] else []) := by
  by_cases h : k = k' <;>
    simp [samplesOf, List.filter_append, h]

theorem samplesOf_eq_nil (k : List Char) : ∀ evs : List (List Char × Sample),
    k ∉ evs.map Prod.fst → samplesOf k evs = [] := by
  intro evs
  induction evs with
  | nil => intro _; rfl
  | cons e rest ih =>
    intro h
    have h1 : ¬(e.1 = k) := fun hh =>
      h (List.mem_map.mpr ⟨e, List.mem_cons_self _ _, hh⟩)
    have h2 : k ∉ rest.map Prod.fst := by
      intro hh
      rcases List.mem_map.mp hh with ⟨a, ha, hak⟩
      exact h (List.mem_map.mpr ⟨a, List.mem_cons_of_mem _ ha, hak⟩)
    simp only [samplesOf, List.filter_cons]
    rw [if_neg (by simpa using h1)]
    exact ih h2

theorem runAppends_snoc (st : LoggerState) (evs : List (List Char × Sample))
    (k : List Char) (v : Sample) :
    runAppends st (evs ++ [(k, v)]) = Logger.append (runAppends st evs) k v := by
  induction evs generalizing st with
  | nil => rfl
  | cons e rest ih =>
    obtain ⟨k0, v0⟩ := e
    simp only [List.cons_append, runAppends]
    exact ih _

theorem runAppends_file_out (st : LoggerState) : ∀ evs : List (List Char × Sample),
    (runAppends st evs).fileContent = st.fileContent ∧ (runAppends st evs).out = st.out := by
  intro evs
  induction evs generalizing st with
  | nil => exact ⟨rfl, rfl⟩
  | cons e rest ih =>
    obtain ⟨k0, v0⟩ := e
    exact ih (Logger.append st k0 v0)

/-- The ordered dict a sequence of `Logger.append` calls builds from an
empty accumulator: one series per key in first-seen order, holding that
key's samples in append order. -/
def infosOf (evs : List (List Char × Sample)) : List (List Char × List Sample) :=
  (dedupFirst (evs.map Prod.fst)).map (fun k => (k, samplesOf k evs))

theorem addSample_infosOf (k : List Char) (v : Sample)
    (evs : List (List Char × Sample)) :
    addSample k v (infosOf evs) = infosOf (evs ++ [(k, v)]) := by
  have hmapfst : (evs ++ [(k, v)]).map Prod.fst = evs.map Prod.fst ++ [k] := by
    simp
  by_cases hmem : k ∈ dedupFirst (evs.map Prod.fst)
  · simp only [infosOf, hmapfst, dedupFirst_append_single, if_pos hmem]
    exact addSample_map (fun x => samplesOf x evs)
      (fun x => samplesOf x (evs ++ [(k, v)])) k v
      (fun x hx => by
        show samplesOf x (evs ++ [(k, v)]) = samplesOf x evs
        rw [samplesOf_append_single, if_neg (fun hh => hx hh.symm), List.append_nil])
      (by
        show samplesOf k (evs ++ [(k, v)]) = samplesOf k evs ++ [v]
        rw [samplesOf_append_single, if_pos rfl])
      _ (dedupFirst_nodup _) hmem
  · simp only [infosOf, hmapfst, dedupFirst_append_single, if_neg hmem, List.map_append]
    have hnm : ∀ e ∈ (dedupFirst (evs.map Prod.fst)).map
        (fun x => (x, samplesOf x evs)), e.1 ≠ k := by
      intro e he
      rcases List.mem_map.mp he with ⟨x, hx, rfl⟩
      intro hh
      exact hmem (hh ▸ hx)
    rw [addSample_of_not_mem hnm]
    congr 1
    · refine List.map_congr_left ?_
      intro x hx
      rw [samplesOf_append_single, if_neg (fun hh => hmem (by rw [hh]; exact hx)),
        List.append_nil]
    · simp only [List.map_cons, List.map_nil]
      rw [samplesOf_append_single, if_pos rfl,
        samplesOf_eq_nil k evs (fun hc => hmem (dedupFirst_mem_iff.mpr hc)),
        List.nil_append]

theorem runAppends_infos (f o : List Char) (evs : List (List Char × Sample)) :
    (runAppends ⟨f, o, []⟩ evs).infos = infosOf evs := by
  induction evs using List.reverseRecOn with
  | nil => rfl
  | append_singleton evs e ih =>
    obtain ⟨k, v⟩ := e
    rw [runAppends_snoc]
    show addSample k v (runAppends ⟨f, o, []⟩ evs).infos = _
    rw [ih, addSample_infosOf]

theorem seriesBad_eq_false {vs : List Sample} (h : vs.any Sample.isFloat = true) :
    seriesBad vs = false := by
  rcases List.any_eq_true.mp h with ⟨s, hs, hf⟩
  cases hall : vs.all (fun s => !s.isFloat) with
  | false => simp [seriesBad, hall]
  | true =>
    have := List.all_eq_true.mp hall s hs
    rw [hf] at this
    cases this

theorem log_ok_infos {st : LoggerState} {delim : List Char} {st2 : LoggerState}
    (h : Logger.log st delim = .ok st2) : st2.infos = [] := by
  simp only [Logger.log] at h
  split at h
  · exact Except.noConfusion h
  · injection h with h2
    rw [← h2]

theorem log_empty_infos {st : LoggerState} {delim : List Char} (h : st.infos = []) :
    Logger.log st delim = .ok ⟨st.fileContent ++ ['\n'], st.out ++ ['\n'], []⟩ := by
  simp only [Logger.log, h, List.any_nil, List.map_nil, Bool.false_eq_true,
    if_false, joinWith, List.nil_append, List.append_nil]

/-- C7: for every message and logger state, `Logger.write` writes exactly
the message followed by one newline to the output file (and prints the
same to standard output) and leaves every tracked series unchanged — no
mean is computed and the accumulator is not cleared. -/
theorem write_line_frame (st : LoggerState) (msg : List Char) :
    (Logger.write st msg).fileContent = st.fileContent ++ msg ++ ['\n']
    ∧ (Logger.write st msg).out = st.out ++ msg ++ ['\n']
    ∧ (Logger.write st msg).infos = st.infos :=
  ⟨rfl, rfl, rfl⟩

/-- C6: after every successful flush the accumulator is empty; a flush
with no tracked series writes and prints exactly an empty line, and so
does a second flush immediately after a first one; and between flushes,
appending to a key not yet tracked creates that series (at the end of the
ordered dict). -/
theorem flush_clears_accumulator :
    (∀ (st : LoggerState) (delim : List Char) (st2 : LoggerState),
        Logger.log st delim = .ok st2 → st2.infos = [])
    ∧ (∀ (st : LoggerState) (delim : List Char), st.infos = [] →
        Logger.log st delim = .ok ⟨st.fileContent ++ ['\n'], st.out ++ ['\n'], []⟩)
    ∧ (∀ (st st2 : LoggerState) (delim : List Char), Logger.log st delim = .ok st2 →
        Logger.log st2 delim = .ok ⟨st2.fileContent ++ ['\n'], st2.out ++ ['\n'], []⟩)
    ∧ (∀ (st : LoggerState) (k : List Char) (v : Sample),
        (∀ e ∈ st.infos, e.1 ≠ k) →
        (Logger.append st k v).infos = st.infos ++ [(k, [v])]) :=
  ⟨fun _ _ _ h => log_ok_infos h,
   fun _ _ h => log_empty_infos h,
   fun _ _ _ h => log_empty_infos (log_ok_infos h),
   fun _ _ _ h => addSample_of_not_mem h⟩

theorem flush_clears_accumulator_witness :
    Logger.log (⟨[], [], []⟩ : LoggerState) ['\n'] = .ok ⟨['\n'], ['\n'], []⟩ :=
  flush_clears_accumulator.2.1 ⟨[], [], []⟩ ['\n'] rfl

/-- C10: if some tracked series is a nonempty all-`int` list, `Logger.log`
raises (models the `RuntimeError` from `mean()` on an `int64` tensor) and
emits nothing; if instead every tracked series contains at least one
`float` sample, `Logger.log` succeeds. -/
theorem flush_int_series_error (st : LoggerState) (delim : List Char) :
    (∀ p ∈ st.infos, p.2 ≠ [] → p.2.all (fun s => !s.isFloat) = true →
        Logger.log st delim = .error ())
    ∧ ((∀ p ∈ st.infos, p.2.any Sample.isFloat = true) →
        ∃ st2, Logger.log st delim = .ok st2) := by
  constructor
  · intro p hp hne hall
    have hbad : seriesBad p.2 = true := by
      simp only [seriesBad, hall, Bool.and_true, Bool.not_eq_true']
      exact List.isEmpty_eq_false.mpr hne
    have hany : st.infos.any (fun p => seriesBad p.2) = true :=
      List.any_eq_true.mpr ⟨p, hp, hbad⟩
    simp only [Logger.log, hany, if_true]
  · intro hfl
    have hany : st.infos.any (fun p => seriesBad p.2) = false := by
      cases hc : st.infos.any (fun p => seriesBad p.2) with
      | false => rfl
      | true =>
        rcases List.any_eq_true.mp hc with ⟨p, hp, hbad⟩
        rw [seriesBad_eq_false (hfl p hp)] at hbad
        cases hbad
    refine ⟨⟨st.fileContent ++ joinWith delim
        (st.infos.map (fun p => p.1 ++ ' ' :: fmt6 (meanQ p.2))) ++ ['\n'],
      st.out ++ joinWith delim
        (st.infos.map (fun p => p.1 ++ ' ' :: fmt6 (meanQ p.2))) ++ ['\n'], []⟩, ?_⟩
    simp only [Logger.log, hany, Bool.false_eq_true, if_false]

theorem flush_int_series_error_witness :
    Logger.log (⟨[], [], [(['k'], [Sample.int 3])]⟩ : LoggerState) ['\n'] = .error ()
    ∧ ∃ st2, Logger.log (⟨[], [], [(['k'], [Sample.float 3])]⟩ : LoggerState) ['\n']
        = .ok st2 :=
  ⟨(flush_int_series_error ⟨[], [], [(['k'], [Sample.int 3])]⟩ ['\n']).1
      (['k'], [Sample.int 3]) (List.mem_cons_self _ _) (by decide) (by decide),
   (flush_int_series_error ⟨[], [], [(['k'], [Sample.float 3])]⟩ ['\n']).2
      (by decide)⟩

theorem rndHalfEven_intCast (n : Int) : rndHalfEven (n : ℚ) = n := by
  rw [rndHalfEven, Int.floor_intCast, sub_self, if_pos (by norm_num)]

theorem meanQ_single (q : ℚ) : meanQ [Sample.float q] = q := by
  simp [meanQ, Sample.toQ]

theorem fmt6_one : fmt6 1 = ['1', '.', '0', '0', '0', '0', '0', '0'] := by
  have h1 : (1 : ℚ) * 1000000 = ((1000000 : Int) : ℚ) := by norm_num
  rw [fmt6, h1, rndHalfEven_intCast, if_neg (by norm_num)]
  simp +decide [natToChars, padZeros6, digitCh, List.replicate]

theorem fmt6_two : fmt6 2 = ['2', '.', '0', '0', '0', '0', '0', '0'] := by
  have h1 : (2 : ℚ) * 1000000 = ((2000000 : Int) : ℚ) := by norm_num
  rw [fmt6, h1, rndHalfEven_intCast, if_neg (by norm_num)]
  simp +decide [natToChars, padZeros6, digitCh, List.replicate]

/-- C2 (amended): for a sequence of `Logger.append` calls in which every
tracked series receives at least one `float` sample, `Logger.log` emits
one `"<key> <mean formatted to 6 decimal places>"` line per series in the
order each series was first created, joins the lines with the delimiter,
appends a trailing newline, and writes the result both to the output file
and to standard output, clearing the accumulator.  (Without the `float`
hypothesis the call can instead raise, see the counterexample.) -/
theorem flush_after_appends (f o delim : List Char) (evs : List (List Char × Sample))
    (hfl : ∀ k ∈ evs.map Prod.fst, (samplesOf k evs).any Sample.isFloat = true) :
    Logger.log (runAppends ⟨f, o, []⟩ evs) delim =
      .ok ⟨f ++ msgOf delim evs ++ ['\n'], o ++ msgOf delim evs ++ ['\n'], []⟩ := by
  have hinfos := runAppends_infos f o evs
  have hfo := runAppends_file_out ⟨f, o, []⟩ evs
  have hany : ((infosOf evs).any (fun p => seriesBad p.2)) = false := by
    cases hc : (infosOf evs).any (fun p => seriesBad p.2) with
    | false => rfl
    | true =>
      rcases List.any_eq_true.mp hc with ⟨p, hp, hbad⟩
      simp only [infosOf] at hp
      rcases List.mem_map.mp hp with ⟨x, hx, rfl⟩
      dsimp only at hbad
      rw [seriesBad_eq_false (hfl x (dedupFirst_mem_iff.mp hx))] at hbad
      cases hbad
  simp only [Logger.log, hinfos, hany, Bool.false_eq_true, if_false, hfo.1, hfo.2]
  rw [infosOf, List.map_map]
  rfl

/-- C2 counterexample: appending the integer sample `1` to series
`"loss"` and flushing raises (the tensor is integer-typed and `mean()` is
undefined on it) instead of emitting `"loss 1.000000"` — no output state
exists at all. -/
theorem flush_int_append_counterexample :
    Logger.log (runAppends ⟨[], [], []⟩ [(['l', 'o', 's', 's'], Sample.int 1)]) ['\n']
      = .error ()
    ∧ ∀ st2 : LoggerState, (Except.error () : Except Unit LoggerState) ≠ .ok st2 :=
  ⟨rfl, fun _ h => Except.noConfusion h⟩

theorem flush_after_appends_witness :
    Logger.log (runAppends ⟨[], [], []⟩
        [(['b'], Sample.float 1), (['a'], Sample.float 2)]) ['\n']
      = .ok ⟨['b', ' ', '1', '.', '0', '0', '0', '0', '0', '0', '\n',
              'a', ' ', '2', '.', '0', '0', '0', '0', '0', '0', '\n'],
             ['b', ' ', '1', '.', '0', '0', '0', '0', '0', '0', '\n',
              'a', ' ', '2', '.', '0', '0', '0', '0', '0', '0', '\n'], []⟩ := by
  have h := flush_after_appends [] [] ['\n']
    [(['b'], Sample.float 1), (['a'], Sample.float 2)] (by decide)
  rw [h]
  have hmsg : msgOf ['\n'] [(['b'], Sample.float 1), (['a'], Sample.float 2)]
      = ['b', ' ', '1', '.', '0', '0', '0', '0', '0', '0', '\n',
         'a', ' ', '2', '.', '0', '0', '0', '0', '0', '0'] := by
    simp +decide [msgOf, lineOf, dedupFirst, samplesOf, joinWith, meanQ_single,
      fmt6_one, fmt6_two]
  rw [hmsg]
  rfl

theorem dump_bare_filename_raises_witness :
    Config.dump ⟨[]⟩ ['f'] ⟨[], []⟩ = .error (.enoent, ⟨[], []⟩) :=
  dump_bare_filename_raises ⟨[]⟩ ['f'] ⟨[], []⟩ (by decide)

theorem dump_creates_parents_witness :
    Config.dump ⟨[]⟩ ['d', '/', 'f'] ⟨[], []⟩
      = .ok ⟨[['d']], [(['d', '/', 'f'], dumps (Json.obj []) ++ ['\n'])]⟩
    ∧ Config.load ['d', '/', 'f']
        ⟨[['d']], [(['d', '/', 'f'], dumps (Json.obj []) ++ ['\n'])]⟩
      = .ok ⟨[]⟩ := by
  have h := dump_creates_parents ⟨[]⟩ [['d']] ['f'] ⟨[], []⟩ (by decide)
    (fun s hs => by
      rcases List.mem_singleton.mp hs with rfl
      exact ⟨by decide, by decide⟩)
    ⟨by decide, by decide⟩ (by decide) (by decide)
  refine ⟨h.1, ?_⟩
  have h4 := h.2.2.2
  simp only [canonMembers, sortPairs] at h4
  exact h4

theorem dump_load_roundtrip_witness :
    ∃ c2, Config.load ['d', '/', 'f']
        ⟨[['d']], [(['d', '/', 'f'], dumps (Json.obj []) ++ ['\n'])]⟩ = .ok c2
      ∧ jeqB (Json.obj c2.attrs) (Json.obj []) = true :=
  dump_load_roundtrip ⟨[]⟩ ['d', '/', 'f'] ⟨[], []⟩
    ⟨[['d']], [(['d', '/', 'f'], dumps (Json.obj []) ++ ['\n'])]⟩
    (by simp [wf, wfMembers, nodupKeys]) (by rfl)

theorem repr_dump_amended_witness :
    readFile ⟨[['d']], [(['d', '/', 'f'], Config.repr ⟨[]⟩ ++ ['\n'])]⟩ ['d', '/', 'f']
      = .ok (Config.repr ⟨[]⟩ ++ ['\n']) :=
  repr_dump_amended ⟨[]⟩ ['d', '/', 'f'] ⟨[], []⟩
    ⟨[['d']], [(['d', '/', 'f'], Config.repr ⟨[]⟩ ++ ['\n'])]⟩ (by rfl)

theorem load_error_classification_witness :
    Config.load ['p'] ⟨[], []⟩ = .error (.ioError .enoent)
    ∧ Config.load ['q'] ⟨[], [(['q'], ['x'])]⟩ = .error .parseError :=
  ⟨load_error_classification.1 ⟨[], []⟩ ['p'] rfl (by decide),
   load_error_classification.2 ⟨[], [(['q'], ['x'])]⟩ ['q'] ['x'] rfl (by decide)
     (by simp +decide [jsonLoad, parseVal, skipWs])⟩

theorem repr_deterministic_sorted_witness :
    Config.repr ⟨[(['a'], Json.num 1), (['b'], Json.num 2)]⟩
      = Config.repr ⟨[(['b'], Json.num 2), (['a'], Json.num 1)]⟩ :=
  repr_deterministic_sorted.1 ⟨[(['a'], Json.num 1), (['b'], Json.num 2)]⟩
    ⟨[(['b'], Json.num 2), (['a'], Json.num 1)]⟩ (by decide) (by decide)
    (fun k => by
      show lookupJ k [(['a'], Json.num 1), (['b'], Json.num 2)]
        = lookupJ k [(['b'], Json.num 2), (['a'], Json.num 1)]
      by_cases ha : (['a'] : Key) = k
      · subst ha
        rfl
      · by_cases hb : (['b'] : Key) = k
        · subst hb
          rfl
        · simp only [lookupJ, if_neg ha, if_neg hb])
